import Mathlib

/-!
MeasurementTimeline of the generalized information filter.

A shallow embedding of `src/src/Measurement.cpp`.

* `TimePoint` and `Duration` are tick counts, taken as exact integers.
* `std::shared_ptr<const MeasurementBase>` is `Option M`; `none` is the null pointer.
* `std::map<TimePoint, shared_ptr>` is an association list kept in ascending key order
  (`MeasMap.WF`); an iterator is a position in that list, `end()` being its length.
* `std::set<TimePoint>` is a list of times, iterated front to back; `TimeSet.WF`
  says that it is strictly ascending.
* `std::map::at` throws `std::out_of_range`; an operation that can throw returns
  `Except σ σ`, the error carrying the state the object is left in.
* `BinaryResidualBase` is not among the sources; its two hooks are parameters,
  functions from their inputs to their outputs.

Also embedded are `StateDefinition` and `StateWrapper` of
`src/include/generalized_information_filter/StateDefinition.hpp` and `state.h`, and
`PoseUpdate::evalUnaryUpdateImpl` of `residuals/PoseUpdate.hpp`.

* `std::unordered_map<std::string, int>` is the list of its entries; since it is iterated
  in an order of its own, `computeMap` takes the order of iteration as an argument.
* The `elements_` of a `State` are a list; `at` out of range is `none`.
* An element definition is a value of a parameter type `E`, an element one of `El`.
* The vector and rotation types of the pose update are parameters with exact arithmetic.
-/

namespace GIF

abbrev TimePoint := Int
abbrev Duration := Int

/-- The value of `TimePoint::min()` for a signed 64 bit tick count. -/
def TimePoint.min : TimePoint := -(2 ^ 63)

/-- A possibly null shared pointer to a measurement. -/
abbrev MeasPtr (M : Type) := Option M

/-- The ordered map from time to measurement, as its sequence of nodes. -/
abbrev MeasMap (M : Type) := List (TimePoint × MeasPtr M)

/-- A set of times, as the sequence in which it is iterated. -/
abbrev TimeSet := List TimePoint

/-- Strictly ascending, as the iteration order of a `std::set` is. -/
def TimeSet.WF (times : TimeSet) : Prop := times.Pairwise (· < ·)

instance (times : TimeSet) : Decidable (TimeSet.WF times) := by
  unfold TimeSet.WF
  infer_instance

/-- The `insert` member of `std::set`: adds `t` in order unless it is present. -/
def TimeSet.insert : TimeSet → TimePoint → TimeSet
  | [], t => [t]
  | a :: rest, t =>
    if t < a then t :: a :: rest
    else if t = a then a :: rest
    else a :: TimeSet.insert rest t

namespace MeasMap

variable {M : Type}

/-- The stored times, in iteration order. -/
def keys (m : MeasMap M) : List TimePoint := m.map Prod.fst

/-- Keys strictly ascending: the representation invariant of `std::map`. -/
def WF (m : MeasMap M) : Prop := (keys m).Pairwise (· < ·)

instance (m : MeasMap M) : Decidable (WF m) := by
  unfold WF
  infer_instance

/-- The `count` member: how many nodes carry the key `t`. -/
def count (m : MeasMap M) (t : TimePoint) : Nat := (keys m).count t

/-- The `at` member: the value stored at `t`, or `none` where `at` throws. -/
def at? : MeasMap M → TimePoint → Option (MeasPtr M)
  | [], _ => none
  | e :: rest, t => if e.1 = t then some e.2 else at? rest t

/-- The `insert` member: adds the node in key order unless the key is present;
the flag is the `second` of the returned pair. -/
def insert : MeasMap M → TimePoint → MeasPtr M → MeasMap M × Bool
  | [], t, v => ([(t, v)], true)
  | e :: rest, t, v =>
    if t < e.1 then ((t, v) :: e :: rest, true)
    else if t = e.1 then (e :: rest, false)
    else ((e :: (insert rest t v).1), (insert rest t v).2)

/-- The `erase` member taking a key. -/
def erase (m : MeasMap M) (t : TimePoint) : MeasMap M := m.filter (fun e => e.1 ≠ t)

/-- Assignment through the reference that `at(t)` returns. -/
def assign : MeasMap M → TimePoint → MeasPtr M → MeasMap M
  | [], _, _ => []
  | e :: rest, t, v => if e.1 = t then (e.1, v) :: rest else e :: assign rest t v

/-- The `lower_bound` member: position of the first node whose key is not less than `t`. -/
def lowerBound (m : MeasMap M) (t : TimePoint) : Nat := m.findIdx (fun e => decide (t ≤ e.1))

/-- The `upper_bound` member: position of the first node whose key is greater than `t`. -/
def upperBound (m : MeasMap M) (t : TimePoint) : Nat := m.findIdx (fun e => decide (t < e.1))

/-- Position of the node with key `t`: how an iterator to that node is found again after
other nodes were erased. -/
def position (m : MeasMap M) (t : TimePoint) : Nat := m.findIdx (fun e => decide (e.1 = t))

end MeasMap

/-- The two hooks of `BinaryResidualBase` that the timeline calls. -/
structure BinaryResidualBase (M : Type) where
  splitMeasurements : MeasPtr M → TimePoint → TimePoint → TimePoint → MeasPtr M × MeasPtr M
  mergeMeasurements : MeasPtr M → MeasPtr M → TimePoint → TimePoint → TimePoint → MeasPtr M

/-- The data members of `MeasurementTimeline`. -/
structure MeasurementTimeline (M : Type) where
  measMap : MeasMap M
  maxWaitTime : Duration
  minWaitTime : Duration
  lastProcessedTime : TimePoint
  hasProcessedTime : Bool
deriving DecidableEq

/-- Result of a member function that may throw `std::out_of_range`. -/
abbrev Outcome (M : Type) := Except (MeasurementTimeline M) (MeasurementTimeline M)

/-- The state the object is in afterwards, whether the call returned or threw. -/
def Outcome.state {M : Type} : Outcome M → MeasurementTimeline M
  | .ok s => s
  | .error s => s

namespace MeasurementTimeline

variable {M : Type}

/-- The constructor. -/
def new (maxWaitTime minWaitTime : Duration) : MeasurementTimeline M :=
  { measMap := [], maxWaitTime := maxWaitTime, minWaitTime := minWaitTime,
    lastProcessedTime := TimePoint.min, hasProcessedTime := false }

/-- The stored times. -/
def times (s : MeasurementTimeline M) : List TimePoint := s.measMap.keys

/-- `addMeas`: rejected at or before the watermark, otherwise `insert`, which keeps an
existing node. -/
def addMeas (s : MeasurementTimeline M) (meas : MeasPtr M) (t : TimePoint) :
    MeasurementTimeline M :=
  if s.hasProcessedTime && decide (t ≤ s.lastProcessedTime) then s
  else { s with measMap := (s.measMap.insert t meas).1 }

/-- `removeProcessedFirst`; `none` when the assertion fails. -/
def removeProcessedFirst (s : MeasurementTimeline M) : Option (MeasurementTimeline M) :=
  match s.measMap with
  | [] => none
  | e :: rest => some { s with lastProcessedTime := e.1, measMap := rest, hasProcessedTime := true }

/-- `removeProcessedMeas`; `none` when the assertion fails. -/
def removeProcessedMeas (s : MeasurementTimeline M) (t : TimePoint) :
    Option (MeasurementTimeline M) :=
  if s.measMap.count t > 0 then
    some { s with measMap := s.measMap.erase t, lastProcessedTime := t, hasProcessedTime := true }
  else none

/-- `clear`. -/
def clear (s : MeasurementTimeline M) : MeasurementTimeline M :=
  { s with measMap := [], hasProcessedTime := false }

/-- `getLastTime`: `none` is the `false` return, which leaves the argument untouched. -/
def getLastTime (s : MeasurementTimeline M) : Option TimePoint :=
  match s.measMap.getLast? with
  | some e => some e.1
  | none => if s.hasProcessedTime then some s.lastProcessedTime else none

/-- `getMaximalUpdateTime`. -/
def getMaximalUpdateTime (s : MeasurementTimeline M) (currentTime : TimePoint) : TimePoint :=
  let maximalUpdateTime := currentTime - s.maxWaitTime
  match s.measMap.getLast? with
  | some e => max maximalUpdateTime (e.1 + s.minWaitTime)
  | none =>
    if s.hasProcessedTime then max maximalUpdateTime (s.lastProcessedTime + s.minWaitTime)
    else maximalUpdateTime

/-- The single form of `split`: `addMeas` of a null measurement at `t1`, then the residual
writes its two outputs through `at(t1)` and `at(t2)`. Either `at` throws when its key is
absent, before the residual is called. Where `t1 = t2` both outputs go to one node and
the second is the one kept here. -/
def split (s : MeasurementTimeline M) (t0 t1 t2 : TimePoint) (res : BinaryResidualBase M) :
    Outcome M :=
  let s1 := s.addMeas none t1
  match s1.measMap.at? t2, s1.measMap.at? t1 with
  | some m2, some _ =>
    let out := res.splitMeasurements m2 t0 t1 t2
    .ok { s1 with measMap := (s1.measMap.assign t1 out.1).assign t2 out.2 }
  | _, _ => .error s1

/-- Lines 93 to 102 of the batch form of `split`: the arguments of the single split made
for the requested time `t`, or `none` when `t` is skipped. -/
def splitRequest (s : MeasurementTimeline M) (t : TimePoint) :
    Option (TimePoint × TimePoint × TimePoint) :=
  let it := s.measMap.lowerBound t
  if h : it < s.measMap.length then
    if it = 0 ∧ (s.hasProcessedTime = false ∨ s.lastProcessedTime ≥ t) then none
    else if (s.measMap.get ⟨it, h⟩).1 = t then none
    else
      let previous :=
        if it = 0 then s.lastProcessedTime else (s.measMap.get ⟨it - 1, by omega⟩).1
      some (previous, t, (s.measMap.get ⟨it, h⟩).1)
  else none

/-- One iteration of the loop of the batch form of `split`. -/
def splitStep (s : MeasurementTimeline M) (t : TimePoint) (res : BinaryResidualBase M) :
    Outcome M :=
  match splitRequest s t with
  | none => .ok s
  | some a => s.split a.1 a.2.1 a.2.2 res

/-- The batch form of `split`; an exception of a single split ends the loop. -/
def splitBatch (s : MeasurementTimeline M) (times : TimeSet) (res : BinaryResidualBase M) :
    Outcome M :=
  match times with
  | [] => .ok s
  | t :: ts =>
    match splitStep s t res with
    | .ok s1 => splitBatch s1 ts res
    | .error s1 => .error s1

/-- The single splits that the batch form invokes, in order, each with the state it is
invoked in and its three arguments. -/
def splitBatchCalls (s : MeasurementTimeline M) (times : TimeSet) (res : BinaryResidualBase M) :
    List (MeasurementTimeline M × (TimePoint × TimePoint × TimePoint)) :=
  match times with
  | [] => []
  | t :: ts =>
    (match splitRequest s t with
      | none => []
      | some a => [(s, a)]) ++
    (match splitStep s t res with
      | .ok s1 => splitBatchCalls s1 ts res
      | .error _ => [])

/-- `merge`: the residual writes the merged measurement through `at(t2)`, then the node
at `t1` is erased. Either `at` throws when its key is absent. -/
def merge (s : MeasurementTimeline M) (t0 t1 t2 : TimePoint) (res : BinaryResidualBase M) :
    Outcome M :=
  match s.measMap.at? t1, s.measMap.at? t2 with
  | some m1, some m2 =>
    .ok { s with
      measMap := (s.measMap.assign t2 (res.mergeMeasurements m1 m2 t0 t1 t2)).erase t1 }
  | _, _ => .error s

/-- The loop of `mergeUndesired`, from the iterator position `it`, for at most `fuel`
evaluations of the loop condition; `none` when the fuel runs out. The set `times` is
dereferenced at `rbegin()` and so has to be non-empty. The `continue` of the source goes
back to the loop condition with `it` as it is, since the loop header has no increment. -/
def mergeUndesiredLoop (times : TimeSet) (hne : times ≠ []) (res : BinaryResidualBase M) :
    Nat → MeasurementTimeline M → Nat → Option (Outcome M)
  | 0, _, _ => none
  | fuel + 1, s, it =>
    if h : it < s.measMap.length then
      let cur := (s.measMap.get ⟨it, h⟩).1
      if cur > times.getLast hne then some (.ok s)
      else if times.count cur > 0 then mergeUndesiredLoop times hne res fuel s it
      else if it = 0 ∧ (s.hasProcessedTime = false ∨ s.lastProcessedTime > cur) then some (.ok s)
      else if hlast : it + 1 = s.measMap.length then some (.ok s)
      else
        let previous :=
          if it = 0 then s.lastProcessedTime else (s.measMap.get ⟨it - 1, by omega⟩).1
        let next := (s.measMap.get ⟨it + 1, by omega⟩).1
        match s.merge previous cur next res with
        | .ok s1 => mergeUndesiredLoop times hne res fuel s1 (s1.measMap.position next)
        | .error s1 => some (.error s1)
    else some (.ok s)

/-- `mergeUndesired`, the loop started at `begin()`. -/
def mergeUndesired (fuel : Nat) (s : MeasurementTimeline M) (times : TimeSet) (hne : times ≠ [])
    (res : BinaryResidualBase M) : Option (Outcome M) :=
  mergeUndesiredLoop times hne res fuel s 0

/-- The watermark invariant: once a watermark exists every stored time is after it. -/
def WatermarkInv (s : MeasurementTimeline M) : Prop :=
  s.hasProcessedTime = true → ∀ k ∈ s.times, s.lastProcessedTime < k

instance (s : MeasurementTimeline M) : Decidable (WatermarkInv s) := by
  unfold WatermarkInv
  infer_instance

/-- The map is a `std::map` and the watermark invariant holds. -/
def Good (s : MeasurementTimeline M) : Prop := s.measMap.WF ∧ WatermarkInv s

/-- States reached from a newly constructed timeline through the public operations. An
operation that throws leaves a state that is reached as well. -/
inductive Reachable : MeasurementTimeline M → Prop
  | new (maxWaitTime minWaitTime : Duration) : Reachable (new maxWaitTime minWaitTime)
  | addMeas {s : MeasurementTimeline M} (meas : MeasPtr M) (t : TimePoint) :
      Reachable s → Reachable (s.addMeas meas t)
  | removeProcessedFirst {s s1 : MeasurementTimeline M} :
      Reachable s → s.removeProcessedFirst = some s1 → Reachable s1
  | removeProcessedMeas {s s1 : MeasurementTimeline M} (t : TimePoint) :
      Reachable s → s.removeProcessedMeas t = some s1 → Reachable s1
  | clear {s : MeasurementTimeline M} : Reachable s → Reachable s.clear
  | split {s : MeasurementTimeline M} (t0 t1 t2 : TimePoint) (res : BinaryResidualBase M) :
      Reachable s → Reachable (s.split t0 t1 t2 res).state
  | splitBatch {s : MeasurementTimeline M} (times : TimeSet) (res : BinaryResidualBase M) :
      Reachable s → Reachable (s.splitBatch times res).state
  | merge {s : MeasurementTimeline M} (t0 t1 t2 : TimePoint) (res : BinaryResidualBase M) :
      Reachable s → Reachable (s.merge t0 t1 t2 res).state
  | mergeUndesired {s : MeasurementTimeline M} {o : Outcome M} (fuel : Nat) (times : TimeSet)
      (hne : times ≠ []) (res : BinaryResidualBase M) :
      Reachable s → s.mergeUndesired fuel times hne res = some o → Reachable o.state

/-- States reached as in `Reachable`, with `removeProcessedMeas` called only for the
earliest stored time. -/
inductive ReachableInOrder : MeasurementTimeline M → Prop
  | new (maxWaitTime minWaitTime : Duration) : ReachableInOrder (new maxWaitTime minWaitTime)
  | addMeas {s : MeasurementTimeline M} (meas : MeasPtr M) (t : TimePoint) :
      ReachableInOrder s → ReachableInOrder (s.addMeas meas t)
  | removeProcessedFirst {s s1 : MeasurementTimeline M} :
      ReachableInOrder s → s.removeProcessedFirst = some s1 → ReachableInOrder s1
  | removeProcessedMeas {s s1 : MeasurementTimeline M} (t : TimePoint) :
      ReachableInOrder s → s.removeProcessedMeas t = some s1 → (∀ k ∈ s.times, t ≤ k) →
      ReachableInOrder s1
  | clear {s : MeasurementTimeline M} : ReachableInOrder s → ReachableInOrder s.clear
  | split {s : MeasurementTimeline M} (t0 t1 t2 : TimePoint) (res : BinaryResidualBase M) :
      ReachableInOrder s → ReachableInOrder (s.split t0 t1 t2 res).state
  | splitBatch {s : MeasurementTimeline M} (times : TimeSet) (res : BinaryResidualBase M) :
      ReachableInOrder s → ReachableInOrder (s.splitBatch times res).state
  | merge {s : MeasurementTimeline M} (t0 t1 t2 : TimePoint) (res : BinaryResidualBase M) :
      ReachableInOrder s → ReachableInOrder (s.merge t0 t1 t2 res).state

/-- The scenario of the wait time policy: a timeline with `minWaitTime` of 0 s and
`maxWaitTime` of 1 s, into which samples at 1.0 s, 2.0 s and 3.0 s are inserted; `h` is
the number of ticks in half a second. -/
def scenario (h : Int) (m1 m2 m3 : MeasPtr M) : MeasurementTimeline M :=
  (((new (2 * h) 0).addMeas m1 (2 * h)).addMeas m2 (4 * h)).addMeas m3 (6 * h)

/-- A timeline of natural number measurements with samples at 10, 20 and 30. -/
def sample : MeasurementTimeline Nat :=
  { measMap := [(10, some 1), (20, some 2), (30, some 3)], maxWaitTime := 10, minWaitTime := 0,
    lastProcessedTime := TimePoint.min, hasProcessedTime := false }

/-- The timeline `sample` after its first sample was processed: watermark 10. -/
def sampleProcessed : MeasurementTimeline Nat :=
  { measMap := [(20, some 2), (30, some 3)], maxWaitTime := 10, minWaitTime := 0,
    lastProcessedTime := 10, hasProcessedTime := true }

/-- A residual on natural number measurements: a split halves the measurement (the second
part takes the remainder), a merge adds the two parts. -/
def halving : BinaryResidualBase Nat :=
  { splitMeasurements := fun m _ _ _ => (m.map (fun x => x / 2), m.map (fun x => x - x / 2)),
    mergeMeasurements := fun a b _ _ _ => a.bind (fun x => b.map (fun y => x + y)) }

/-- The timeline `sample` after `removeProcessedMeas` of its middle sample: the sample
at 10 is still stored while the watermark is 20. -/
def outOfOrder : MeasurementTimeline Nat :=
  { measMap := [(10, some 1), (30, some 3)], maxWaitTime := 10, minWaitTime := 0,
    lastProcessedTime := 20, hasProcessedTime := true }

/-- The requested time `t` lies in an interval of the timeline: some stored time is at
or after `t`, and a stored time or the watermark is before `t`. -/
def SplitCond (s : MeasurementTimeline M) (t : TimePoint) : Prop :=
  (∃ k ∈ s.times, t ≤ k) ∧
  ((∃ k ∈ s.times, k < t) ∨ (s.hasProcessedTime = true ∧ s.lastProcessedTime < t))

/-- What a single split `(previous, t, next)` invoked in the state `c.1` by the batch form
has to satisfy: `previous < t < next`, `next` is the first stored time not before `t`, and
`previous` is the stored time immediately before `next`, or the watermark when `next` is
the earliest stored time. -/
def SplitCallOk (c : MeasurementTimeline M × (TimePoint × TimePoint × TimePoint)) : Prop :=
  c.2.1 < c.2.2.1 ∧ c.2.2.1 < c.2.2.2 ∧
  (c.2.2.2 ∈ c.1.times ∧ ∀ k ∈ c.1.times, c.2.2.1 ≤ k → c.2.2.2 ≤ k) ∧
  ((c.2.1 ∈ c.1.times ∧ ∀ k ∈ c.1.times, k < c.2.2.2 → k ≤ c.2.1) ∨
   (c.2.1 = c.1.lastProcessedTime ∧ c.1.hasProcessedTime = true ∧
     ∀ k ∈ c.1.times, c.2.2.2 ≤ k))

/-- The loop of `addAllInRange`, the iterator standing at the head of the remaining
nodes: a node with key at most `endTime` is inserted into `times` and the iterator moves
on; the loop ends at `end()` or at the first later key. -/
def addAllInRangeLoop (endTime : TimePoint) : MeasMap M → TimeSet → TimeSet
  | [], times => times
  | e :: rest, times =>
    if e.1 ≤ endTime then addAllInRangeLoop endTime rest (TimeSet.insert times e.1) else times

/-- `addAllInRange`, a const member: the pair is the timeline it leaves and the set
`times` afterwards. The loop starts at `upper_bound(start)`. -/
def addAllInRange (s : MeasurementTimeline M) (times : TimeSet) (start endTime : TimePoint) :
    MeasurementTimeline M × TimeSet :=
  (s, addAllInRangeLoop endTime (s.measMap.drop (s.measMap.upperBound start)) times)

/-- `addLastInRange`, a const member: the pair is the timeline it leaves and the set
`times` afterwards. The iterator `upper_bound(endTime)` is stepped back once unless it
is `begin()`. -/
def addLastInRange (s : MeasurementTimeline M) (times : TimeSet) (start endTime : TimePoint) :
    MeasurementTimeline M × TimeSet :=
  let it := s.measMap.upperBound endTime
  if h : it = 0 then (s, times)
  else
    let e := s.measMap.get ⟨it - 1,
      Nat.lt_of_lt_of_le (Nat.sub_lt (Nat.pos_of_ne_zero h) Nat.one_pos)
        (List.findIdx_le_length _)⟩
    if e.1 > start then (s, TimeSet.insert times e.1) else (s, times)

end MeasurementTimeline

/-! ## The pose update -/

/-- `PoseMeas`: the measured position `pos_` and attitude `att_`. -/
structure PoseMeas (V Q : Type) where
  pos : V
  att : Q

/-- `PoseUpdate::evalUnaryUpdateImpl`: the pair is `(posInn, attInn)`. The vector type
`V3D`, the rotation type `QPD` and their arithmetic belong to the linear algebra library
and are parameters: `V` with `+` and `-`, `Q` with `*` and the inverse for `inverted()`,
and `exponentialMap` as a function of the vector it is given. -/
def PoseUpdate.evalUnaryUpdateImpl {V Q : Type} [AddGroup V] [Group Q]
    (exponentialMap : V → Q) (meas : PoseMeas V Q) (posSta : V) (attSta : Q)
    (posNoi attNoi : V) : V × Q :=
  let posInn := posSta - meas.pos + posNoi
  let dQ := exponentialMap attNoi
  let attInn := dQ * attSta * meas.att⁻¹
  (posInn, attInn)

/-! ## State definitions and wrappers -/

/-- The `std::unordered_map<std::string, int>` of a definition, as its entries. -/
abbrev NamesMap := List (String × Nat)

/-- The `find` member: the index stored for `name`, or `none` for `end()`. The member
`at` returns the same index and throws where this is `none`. -/
def NamesMap.find : NamesMap → String → Option Nat
  | [], _ => none
  | p :: rest, name => if p.1 = name then some p.2 else NamesMap.find rest name

/-- The data members of `StateDefinition`; `E` is the type of an element definition. -/
structure StateDefinition (E : Type) where
  elementDefinitions : List E
  namesMap : NamesMap

namespace StateDefinition

variable {E : Type}

/-- The constructor: no element definition, no name. -/
def empty : StateDefinition E := { elementDefinitions := [], namesMap := [] }

/-- `addElementDefinition<T>(name)`, with `newDefinition` the `ElementDefinition<T>` it
creates: the pair is the definition afterwards and the returned index. The `insert` is
of a name that `find` has just reported absent. -/
def addElementDefinition (d : StateDefinition E) (newDefinition : E) (name : String) :
    StateDefinition E × Nat :=
  match d.namesMap.find name with
  | some i => (d, i)
  | none =>
    ({ elementDefinitions := d.elementDefinitions ++ [newDefinition],
       namesMap := d.namesMap ++ [(name, (d.elementDefinitions ++ [newDefinition]).length - 1)] },
     (d.elementDefinitions ++ [newDefinition]).length - 1)

/-- Definitions built from a new one by `addElementDefinition` calls. -/
inductive Built : StateDefinition E → Prop
  | empty : Built empty
  | add {d : StateDefinition E} (newDefinition : E) (name : String) :
      Built d → Built (d.addElementDefinition newDefinition name).1

/-- The definition with the names `pos` and `att`, registered in this order, an element
definition being a number here. -/
def posAtt : StateDefinition Nat :=
  ((empty.addElementDefinition 1 "pos").1.addElementDefinition 2 "att").1

/-- The definition with the names `att`, `vel` and `pos`, registered in this order. -/
def attVelPos : StateDefinition Nat :=
  (((empty.addElementDefinition 1 "att").1.addElementDefinition 2 "vel").1.addElementDefinition
    3 "pos").1

end StateDefinition

/-- The `elements_` of a `State`. -/
abbrev State (El : Type) := List El

/-- `State::getElement(i)`, which is `elements_.at(i)`: `none` where `at` throws. -/
def State.getElement {El : Type} (st : State El) (i : Nat) : Option El := st[i]?

/-- The data members of `StateWrapper`. -/
structure StateWrapper (E : Type) where
  inDefinition : StateDefinition E
  outDefinition : StateDefinition E
  indexMap : List Nat

namespace StateWrapper

variable {E El : Type}

/-- The `resize` member of `std::vector<int>`: cut to `n` entries, or filled up with 0. -/
def resize (v : List Nat) (n : Nat) : List Nat := v.take n ++ List.replicate (n - v.length) 0

/-- The loop of `computeMap` over the entries of the out names map still to visit; `none`
when the `at` of the index array or the `at` of the in names map throws. -/
def computeMapLoop (inNames : NamesMap) : List (String × Nat) → List Nat → Option (List Nat)
  | [], indexMap => some indexMap
  | outElement :: rest, indexMap =>
    match inNames.find outElement.1 with
    | none => none
    | some j =>
      if outElement.2 < indexMap.length then
        computeMapLoop inNames rest (indexMap.set outElement.2 j)
      else none

/-- `computeMap`; an unordered map is iterated in an order of its own, `order`, which
holds the entries of the out names map. -/
def computeMap (w : StateWrapper E) (order : List (String × Nat)) : Option (StateWrapper E) :=
  match computeMapLoop w.inDefinition.namesMap order
      (resize w.indexMap w.outDefinition.namesMap.length) with
  | some m => some { w with indexMap := m }
  | none => none

/-- The loop of `wrap` from the index `i`, over the entries of the index array from
there on: element `i` of `out` becomes element `indexMap_[i]` of the source; `none` when
an element index is out of range. -/
def wrapLoop (src : State El) : List Nat → Nat → State El → Option (State El)
  | [], _, out => some out
  | j :: rest, i, out =>
    match src.getElement j with
    | none => none
    | some e => if i < out.length then wrapLoop src rest (i + 1) (out.set i e) else none

/-- `wrap(out, in)`: the state `out` afterwards. -/
def wrap (w : StateWrapper E) (out src : State El) : Option (State El) :=
  wrapLoop src w.indexMap 0 out

/-- `StateWrapper::getElement(i)` on the wrapped state: `state_->getElement(indexMap_[i])`. -/
def getElement (w : StateWrapper E) (state : State El) (i : Nat) : Option El :=
  match w.indexMap[i]? with
  | some j => state.getElement j
  | none => none

end StateWrapper

/-! ## Facts about the ordered map -/

namespace MeasMap

variable {M : Type}

theorem insert_cons_lt (e : TimePoint × MeasPtr M) (rest : MeasMap M) (t : TimePoint)
    (v : MeasPtr M) (h : t < e.1) :
    insert (e :: rest) t v = ((t, v) :: e :: rest, true) := by
  rw [insert, if_pos h]

theorem insert_cons_eq (e : TimePoint × MeasPtr M) (rest : MeasMap M) (t : TimePoint)
    (v : MeasPtr M) (h : t = e.1) :
    insert (e :: rest) t v = (e :: rest, false) := by
  rw [insert, if_neg (by rw [h]; exact lt_irrefl _), if_pos h]

theorem insert_cons_gt (e : TimePoint × MeasPtr M) (rest : MeasMap M) (t : TimePoint)
    (v : MeasPtr M) (h : e.1 < t) :
    insert (e :: rest) t v = (e :: (insert rest t v).1, (insert rest t v).2) := by
  rw [insert, if_neg (not_lt.2 (le_of_lt h)), if_neg (ne_of_gt h)]

theorem keys_cons (e : TimePoint × MeasPtr M) (rest : MeasMap M) :
    keys (e :: rest) = e.1 :: keys rest := rfl

theorem WF_cons (e : TimePoint × MeasPtr M) (rest : MeasMap M) :
    WF (e :: rest) ↔ (∀ k ∈ keys rest, e.1 < k) ∧ WF rest := by
  unfold WF
  rw [keys_cons, List.pairwise_cons]

theorem mem_keys_insert (m : MeasMap M) (t : TimePoint) (v : MeasPtr M) (k : TimePoint) :
    k ∈ keys (m.insert t v).1 ↔ k = t ∨ k ∈ keys m := by
  induction m with
  | nil => simp [insert, keys]
  | cons e rest ih =>
    rcases lt_trichotomy t e.1 with h | h | h
    · rw [insert_cons_lt e rest t v h]
      simp [keys]
    · rw [insert_cons_eq e rest t v h, keys_cons, List.mem_cons, h]
      tauto
    · rw [insert_cons_gt e rest t v h, keys_cons, keys_cons, List.mem_cons, List.mem_cons, ih]
      tauto

theorem insert_of_mem (m : MeasMap M) (t : TimePoint) (v : MeasPtr M) (hwf : m.WF)
    (ht : t ∈ keys m) : m.insert t v = (m, false) := by
  induction m with
  | nil => simp [keys] at ht
  | cons e rest ih =>
    rw [WF_cons] at hwf
    rw [keys_cons, List.mem_cons] at ht
    rcases ht with ht | ht
    · exact insert_cons_eq e rest t v ht
    · rw [insert_cons_gt e rest t v (hwf.1 t ht), ih hwf.2 ht]

theorem insert_WF (m : MeasMap M) (t : TimePoint) (v : MeasPtr M) (hwf : m.WF) :
    (m.insert t v).1.WF := by
  induction m with
  | nil => simp [insert, WF, keys]
  | cons e rest ih =>
    have hwf2 := (WF_cons e rest).1 hwf
    rcases lt_trichotomy t e.1 with h | h | h
    · rw [insert_cons_lt e rest t v h]
      refine (WF_cons _ _).2 ⟨?_, hwf⟩
      intro a ha
      rw [keys_cons, List.mem_cons] at ha
      rcases ha with rfl | ha
      · exact h
      · exact lt_trans h (hwf2.1 a ha)
    · rw [insert_cons_eq e rest t v h]
      exact hwf
    · rw [insert_cons_gt e rest t v h]
      refine (WF_cons _ _).2 ⟨?_, ih hwf2.2⟩
      intro a ha
      rcases (mem_keys_insert rest t v a).1 ha with rfl | ha
      · exact h
      · exact hwf2.1 a ha

theorem at?_cons (e : TimePoint × MeasPtr M) (rest : MeasMap M) (k : TimePoint) :
    at? (e :: rest) k = if e.1 = k then some e.2 else at? rest k := rfl

theorem at?_insert (m : MeasMap M) (t : TimePoint) (v : MeasPtr M) (ht : t ∉ keys m)
    (k : TimePoint) : (m.insert t v).1.at? k = if k = t then some v else m.at? k := by
  induction m with
  | nil =>
    by_cases hk : k = t
    · simp [insert, at?, hk]
    · have hk2 : ¬ t = k := fun h => hk h.symm
      simp [insert, at?, hk, hk2]
  | cons e rest ih =>
    rw [keys_cons, List.mem_cons, not_or] at ht
    rcases lt_trichotomy t e.1 with h | h | h
    · rw [insert_cons_lt e rest t v h, at?_cons]
      by_cases hk : k = t
      · simp [hk]
      · have hk2 : ¬ t = k := fun h => hk h.symm
        simp [hk, hk2]
    · exact absurd h ht.1
    · rw [insert_cons_gt e rest t v h, at?_cons, at?_cons, ih ht.2]
      by_cases hk : e.1 = k
      · have hkt : ¬ k = t := by rw [← hk]; exact ne_of_lt h
        simp [hk, hkt]
      · simp [hk]

theorem keys_insert_perm (m : MeasMap M) (t : TimePoint) (v : MeasPtr M) (ht : t ∉ keys m) :
    (keys (m.insert t v).1).Perm (t :: keys m) := by
  induction m with
  | nil => simp [insert, keys]
  | cons e rest ih =>
    rw [keys_cons, List.mem_cons, not_or] at ht
    rcases lt_trichotomy t e.1 with h | h | h
    · rw [insert_cons_lt e rest t v h]
      exact List.Perm.refl _
    · exact absurd h ht.1
    · rw [insert_cons_gt e rest t v h]
      exact ((ih ht.2).cons e.1).trans (List.Perm.swap t e.1 (keys rest))

theorem erase_of_not_mem (m : MeasMap M) (t : TimePoint) (ht : t ∉ keys m) : m.erase t = m := by
  unfold erase
  rw [List.filter_eq_self]
  intro a ha
  have : a.1 ≠ t := by
    intro h
    exact ht (by rw [← h]; exact List.mem_map_of_mem _ ha)
  simpa using this

theorem erase_cons (e : TimePoint × MeasPtr M) (rest : MeasMap M) (t : TimePoint) :
    erase (e :: rest) t = if e.1 = t then erase rest t else e :: erase rest t := by
  unfold erase
  by_cases h : e.1 = t
  · simp [h]
  · simp [h]

theorem erase_insert (m : MeasMap M) (t : TimePoint) (v : MeasPtr M) (ht : t ∉ keys m) :
    (m.insert t v).1.erase t = m := by
  induction m with
  | nil => simp [insert, erase]
  | cons e rest ih =>
    have ht0 := ht
    rw [keys_cons, List.mem_cons, not_or] at ht
    rcases lt_trichotomy t e.1 with h | h | h
    · rw [insert_cons_lt e rest t v h, erase_cons, if_pos rfl]
      exact erase_of_not_mem _ t ht0
    · exact absurd h ht.1
    · rw [insert_cons_gt e rest t v h, erase_cons, if_neg (ne_of_lt h), ih ht.2]

theorem assign_cons (e : TimePoint × MeasPtr M) (rest : MeasMap M) (t : TimePoint)
    (v : MeasPtr M) :
    assign (e :: rest) t v = if e.1 = t then (e.1, v) :: rest else e :: assign rest t v := rfl

theorem keys_assign (m : MeasMap M) (t : TimePoint) (v : MeasPtr M) :
    keys (assign m t v) = keys m := by
  induction m with
  | nil => rfl
  | cons e rest ih =>
    rw [assign_cons]
    by_cases h : e.1 = t
    · rw [if_pos h]; rfl
    · rw [if_neg h, keys_cons, keys_cons, ih]

theorem at?_assign (m : MeasMap M) (t : TimePoint) (v : MeasPtr M) (k : TimePoint) :
    at? (assign m t v) k = if k = t then (at? m t).map (fun _ => v) else at? m k := by
  induction m with
  | nil => simp [assign, at?]
  | cons e rest ih =>
    rw [assign_cons]
    by_cases h : e.1 = t
    · rw [if_pos h]
      by_cases hk : k = t
      · simp [at?_cons, h, hk]
      · have hk2 : ¬ t = k := fun h => hk h.symm
        simp [at?_cons, h, hk, hk2]
    · rw [if_neg h, at?_cons, at?_cons, at?_cons, ih, if_neg h]
      by_cases hk : e.1 = k
      · have hkt : ¬ k = t := fun h2 => h (hk.trans h2)
        simp [hk, hkt]
      · simp [hk]

theorem at?_isSome_iff (m : MeasMap M) (t : TimePoint) : (at? m t).isSome ↔ t ∈ keys m := by
  induction m with
  | nil => simp [at?, keys]
  | cons e rest ih =>
    rw [at?_cons, keys_cons, List.mem_cons]
    by_cases h : e.1 = t
    · simp [h]
    · have h2 : ¬ t = e.1 := fun h3 => h h3.symm
      simp [h, h2, ih]

theorem at?_eq_none_iff (m : MeasMap M) (t : TimePoint) : at? m t = none ↔ t ∉ keys m := by
  rw [← at?_isSome_iff]
  cases at? m t <;> simp

theorem at?_of_mem (m : MeasMap M) (t : TimePoint) (h : t ∈ keys m) :
    ∃ v, at? m t = some v := by
  rw [← at?_isSome_iff] at h
  exact Option.isSome_iff_exists.1 h

theorem mem_of_at? (m : MeasMap M) (t : TimePoint) (v : MeasPtr M) (h : at? m t = some v) :
    t ∈ keys m := by
  rw [← at?_isSome_iff, h]
  rfl

theorem assign_of_at? (m : MeasMap M) (t : TimePoint) (v : MeasPtr M) (h : at? m t = some v) :
    assign m t v = m := by
  induction m with
  | nil => rfl
  | cons e rest ih =>
    rw [assign_cons]
    rw [at?_cons] at h
    by_cases he : e.1 = t
    · rw [if_pos he] at h ⊢
      have : e.2 = v := Option.some.inj h
      rw [← this]
    · rw [if_neg he] at h ⊢
      rw [ih h]

theorem assign_assign (m : MeasMap M) (t : TimePoint) (v w : MeasPtr M) :
    assign (assign m t v) t w = assign m t w := by
  induction m with
  | nil => rfl
  | cons e rest ih =>
    by_cases he : e.1 = t
    · simp [assign_cons, he]
    · simp [assign_cons, he, ih]

theorem erase_assign_same (m : MeasMap M) (t : TimePoint) (v : MeasPtr M) :
    erase (assign m t v) t = erase m t := by
  induction m with
  | nil => rfl
  | cons e rest ih =>
    rw [assign_cons]
    by_cases he : e.1 = t
    · rw [if_pos he, erase_cons, erase_cons, if_pos he, if_pos he]
    · rw [if_neg he, erase_cons, erase_cons, if_neg he, if_neg he, ih]

theorem erase_assign_of_ne (m : MeasMap M) (t u : TimePoint) (v : MeasPtr M) (h : u ≠ t) :
    erase (assign m u v) t = assign (erase m t) u v := by
  induction m with
  | nil => rfl
  | cons e rest ih =>
    rw [assign_cons]
    by_cases he : e.1 = u
    · have het : ¬ e.1 = t := fun h2 => h (he.symm.trans h2)
      rw [if_pos he, erase_cons, erase_cons, if_neg het, if_neg het, assign_cons, if_pos he]
    · rw [if_neg he, erase_cons, erase_cons]
      by_cases het : e.1 = t
      · rw [if_pos het, if_pos het, ih]
      · rw [if_neg het, if_neg het, assign_cons, if_neg he, ih]

theorem mem_keys_erase (m : MeasMap M) (t k : TimePoint) :
    k ∈ keys (erase m t) ↔ k ∈ keys m ∧ k ≠ t := by
  induction m with
  | nil => simp [erase, keys]
  | cons e rest ih =>
    rw [erase_cons]
    by_cases he : e.1 = t
    · rw [if_pos he, ih, keys_cons, List.mem_cons]
      constructor
      · rintro ⟨h1, h2⟩
        exact ⟨Or.inr h1, h2⟩
      · rintro ⟨h1 | h1, h2⟩
        · exact absurd (h1.trans he) h2
        · exact ⟨h1, h2⟩
    · rw [if_neg he, keys_cons, keys_cons, List.mem_cons, List.mem_cons, ih]
      constructor
      · rintro (h1 | ⟨h1, h2⟩)
        · exact ⟨Or.inl h1, by rw [h1]; exact he⟩
        · exact ⟨Or.inr h1, h2⟩
      · rintro ⟨h1 | h1, h2⟩
        · exact Or.inl h1
        · exact Or.inr ⟨h1, h2⟩

theorem erase_WF (m : MeasMap M) (t : TimePoint) (hwf : m.WF) : (erase m t).WF := by
  induction m with
  | nil => exact hwf
  | cons e rest ih =>
    rw [WF_cons] at hwf
    rw [erase_cons]
    by_cases he : e.1 = t
    · rw [if_pos he]
      exact ih hwf.2
    · rw [if_neg he, WF_cons]
      refine ⟨?_, ih hwf.2⟩
      intro k hk
      exact hwf.1 k ((mem_keys_erase rest t k).1 hk).1

theorem assign_WF (m : MeasMap M) (t : TimePoint) (v : MeasPtr M) (hwf : m.WF) :
    (assign m t v).WF := by
  unfold WF at hwf ⊢
  rw [keys_assign]
  exact hwf

theorem at?_erase (m : MeasMap M) (t k : TimePoint) :
    at? (erase m t) k = if k = t then none else at? m k := by
  induction m with
  | nil => simp [erase, at?]
  | cons e rest ih =>
    rw [erase_cons]
    by_cases he : e.1 = t
    · rw [if_pos he, ih, at?_cons]
      by_cases hk : k = t
      · simp [hk]
      · have hk2 : ¬ e.1 = k := fun h => hk (h.symm.trans he)
        simp [hk, hk2]
    · rw [if_neg he, at?_cons, at?_cons, ih]
      by_cases hk : e.1 = k
      · have hkt : ¬ k = t := fun h => he (hk.trans h)
        simp [hk, hkt]
      · simp [hk]

theorem getLast?_max (m : MeasMap M) (hwf : m.WF) (e : TimePoint × MeasPtr M)
    (h : m.getLast? = some e) : ∀ k ∈ keys m, k ≤ e.1 := by
  induction m with
  | nil => simp at h
  | cons a rest ih =>
    rw [WF_cons] at hwf
    cases rest with
    | nil =>
      simp at h
      intro k hk
      simp [keys] at hk
      rw [hk, h]
    | cons b rest2 =>
      rw [List.getLast?_cons_cons] at h
      have hmax := ih hwf.2 h
      intro k hk
      rw [keys_cons, List.mem_cons] at hk
      rcases hk with hk | hk
      · have h1 : a.1 < b.1 := hwf.1 b.1 (by simp [keys])
        have h2 : b.1 ≤ e.1 := hmax b.1 (by simp [keys])
        rw [hk]
        exact le_of_lt (lt_of_lt_of_le h1 h2)
      · exact hmax k hk

theorem get_lt_get (m : MeasMap M) (hwf : m.WF) (i j : Nat) (hi : i < m.length)
    (hj : j < m.length) (hij : i < j) : (m.get ⟨i, hi⟩).1 < (m.get ⟨j, hj⟩).1 := by
  unfold WF keys at hwf
  rw [List.pairwise_iff_getElem] at hwf
  have := hwf i j (by simpa using hi) (by simpa using hj) hij
  simpa using this

theorem get_le_get (m : MeasMap M) (hwf : m.WF) (i j : Nat) (hi : i < m.length)
    (hj : j < m.length) (hij : i ≤ j) : (m.get ⟨i, hi⟩).1 ≤ (m.get ⟨j, hj⟩).1 := by
  rcases Nat.lt_or_eq_of_le hij with h | h
  · exact le_of_lt (get_lt_get m hwf i j hi hj h)
  · subst h
    exact le_refl _

theorem mem_keys_iff_get (m : MeasMap M) (k : TimePoint) :
    k ∈ keys m ↔ ∃ (j : Nat) (hj : j < m.length), (m.get ⟨j, hj⟩).1 = k := by
  unfold keys
  rw [List.mem_map]
  constructor
  · rintro ⟨e, he, rfl⟩
    obtain ⟨j, hj, rfl⟩ := List.getElem_of_mem he
    exact ⟨j, hj, rfl⟩
  · rintro ⟨j, hj, rfl⟩
    exact ⟨m.get ⟨j, hj⟩, List.get_mem _ _ _, rfl⟩

theorem get_mem_keys (m : MeasMap M) (j : Nat) (hj : j < m.length) :
    (m.get ⟨j, hj⟩).1 ∈ keys m :=
  (mem_keys_iff_get m _).2 ⟨j, hj, rfl⟩

theorem lowerBound_le (m : MeasMap M) (t : TimePoint) : lowerBound m t ≤ m.length :=
  List.findIdx_le_length _

theorem lt_of_lt_lowerBound (m : MeasMap M) (t : TimePoint) (j : Nat) (hj : j < m.length)
    (h : j < lowerBound m t) : (m.get ⟨j, hj⟩).1 < t := by
  have := List.not_of_lt_findIdx h
  simpa using this

theorem le_get_lowerBound (m : MeasMap M) (t : TimePoint) (h : lowerBound m t < m.length) :
    t ≤ (m.get ⟨lowerBound m t, h⟩).1 := by
  have h2 : m.findIdx (fun e => decide (t ≤ e.1)) < m.length := h
  have := List.findIdx_getElem (w := h2)
  simpa using this

theorem lowerBound_eq_length_iff (m : MeasMap M) (t : TimePoint) :
    lowerBound m t = m.length ↔ ∀ k ∈ keys m, k < t := by
  unfold lowerBound
  rw [List.findIdx_eq_length]
  constructor
  · intro h k hk
    obtain ⟨j, hj, rfl⟩ := (mem_keys_iff_get m k).1 hk
    have := h _ (List.get_mem m j hj)
    simpa using this
  · intro h e he
    have := h e.1 (List.mem_map_of_mem _ he)
    simpa using this

end MeasMap

/-! ## The timeline -/

namespace MeasurementTimeline

variable {M : Type}

theorem addMeas_rejected (s : MeasurementTimeline M) (meas : MeasPtr M) (t : TimePoint)
    (h : s.hasProcessedTime = true ∧ t ≤ s.lastProcessedTime) : s.addMeas meas t = s := by
  simp [addMeas, h.1, h.2]

theorem addMeas_accepted (s : MeasurementTimeline M) (meas : MeasPtr M) (t : TimePoint)
    (h : ¬ (s.hasProcessedTime = true ∧ t ≤ s.lastProcessedTime)) :
    s.addMeas meas t = { s with measMap := (s.measMap.insert t meas).1 } := by
  unfold addMeas
  rw [if_neg]
  simpa using h

theorem addMeas_lastProcessedTime (s : MeasurementTimeline M) (meas : MeasPtr M)
    (t : TimePoint) : (s.addMeas meas t).lastProcessedTime = s.lastProcessedTime := by
  unfold addMeas
  split <;> rfl

theorem addMeas_hasProcessedTime (s : MeasurementTimeline M) (meas : MeasPtr M)
    (t : TimePoint) : (s.addMeas meas t).hasProcessedTime = s.hasProcessedTime := by
  unfold addMeas
  split <;> rfl

theorem addMeas_WF (s : MeasurementTimeline M) (meas : MeasPtr M) (t : TimePoint)
    (hwf : s.measMap.WF) : (s.addMeas meas t).measMap.WF := by
  unfold addMeas
  split
  · exact hwf
  · exact MeasMap.insert_WF _ _ _ hwf

theorem mem_times_addMeas (s : MeasurementTimeline M) (meas : MeasPtr M) (t k : TimePoint) :
    k ∈ (s.addMeas meas t).times ↔
      k ∈ s.times ∨ (k = t ∧ ¬ (s.hasProcessedTime = true ∧ t ≤ s.lastProcessedTime)) := by
  by_cases h : s.hasProcessedTime = true ∧ t ≤ s.lastProcessedTime
  · rw [addMeas_rejected s meas t h]
    tauto
  · rw [addMeas_accepted s meas t h]
    show k ∈ MeasMap.keys (s.measMap.insert t meas).1 ↔ _
    rw [MeasMap.mem_keys_insert]
    unfold times
    tauto

/-- C1: `addMeas(m, t)` leaves the stored map as it is when a watermark exists with
`t <= lastProcessedTime` or when `t` is a stored time; in every other case the new map is
the old one plus the one entry `t -> m` (same lookups elsewhere, stored times the old ones
and `t`). The watermark and its flag are never changed. -/
theorem addMeas_spec (s : MeasurementTimeline M) (meas : MeasPtr M) (t : TimePoint)
    (hwf : s.measMap.WF) :
    (((s.hasProcessedTime = true ∧ t ≤ s.lastProcessedTime) ∨ t ∈ s.times) →
        (s.addMeas meas t).measMap = s.measMap) ∧
    (¬ ((s.hasProcessedTime = true ∧ t ≤ s.lastProcessedTime) ∨ t ∈ s.times) →
        (∀ k, (s.addMeas meas t).measMap.at? k = if k = t then some meas else s.measMap.at? k) ∧
        (s.addMeas meas t).times.Perm (t :: s.times) ∧
        (s.addMeas meas t).measMap.WF) ∧
    (s.addMeas meas t).lastProcessedTime = s.lastProcessedTime ∧
    (s.addMeas meas t).hasProcessedTime = s.hasProcessedTime := by
  refine ⟨?_, ?_, addMeas_lastProcessedTime s meas t, addMeas_hasProcessedTime s meas t⟩
  · intro h
    by_cases hr : s.hasProcessedTime = true ∧ t ≤ s.lastProcessedTime
    · rw [addMeas_rejected s meas t hr]
    · rw [addMeas_accepted s meas t hr]
      have ht : t ∈ MeasMap.keys s.measMap := by
        rcases h with h | h
        · exact absurd h hr
        · exact h
      show (s.measMap.insert t meas).1 = s.measMap
      rw [MeasMap.insert_of_mem _ _ _ hwf ht]
  · intro h
    rw [not_or] at h
    have ht : t ∉ MeasMap.keys s.measMap := h.2
    rw [addMeas_accepted s meas t h.1]
    exact ⟨MeasMap.at?_insert _ _ _ ht, MeasMap.keys_insert_perm _ _ _ ht,
      MeasMap.insert_WF _ _ _ hwf⟩

/-- Witness of C1: on the timeline with samples at 10, 20, 30 a sample at 15 is added
and one at 20 is not. -/
theorem addMeas_spec_witness :
    sample.measMap.WF ∧
    ((sample.addMeas (some 7) 15).times.Perm (15 :: sample.times) ∧
     (sample.addMeas (some 7) 20).measMap = sample.measMap) :=
  ⟨by decide,
   ((addMeas_spec sample (some 7) 15 (by decide)).2.1 (by decide)).2.1,
   (addMeas_spec sample (some 7) 20 (by decide)).1 (by decide)⟩

/-! ### The watermark invariant -/

theorem good_new (maxWaitTime minWaitTime : Duration) :
    Good (new maxWaitTime minWaitTime : MeasurementTimeline M) := by
  constructor
  · exact List.Pairwise.nil
  · intro h
    simp [new] at h

theorem good_addMeas (s : MeasurementTimeline M) (meas : MeasPtr M) (t : TimePoint)
    (h : Good s) : Good (s.addMeas meas t) := by
  refine ⟨addMeas_WF s meas t h.1, ?_⟩
  intro hhas k hk
  rw [addMeas_hasProcessedTime] at hhas
  rw [addMeas_lastProcessedTime]
  rcases (mem_times_addMeas s meas t k).1 hk with hk | ⟨hk, hacc⟩
  · exact h.2 hhas k hk
  · rw [hk]
    by_contra hlt
    exact hacc ⟨hhas, not_lt.1 hlt⟩

theorem good_removeProcessedFirst (s s1 : MeasurementTimeline M) (h : Good s)
    (hs : s.removeProcessedFirst = some s1) : Good s1 := by
  unfold removeProcessedFirst at hs
  have hwf := h.1
  split at hs
  · simp at hs
  · rename_i e rest heq
    rw [heq, MeasMap.WF_cons] at hwf
    cases hs
    exact ⟨hwf.2, fun _ k hk => hwf.1 k hk⟩

theorem good_removeProcessedMeas (s s1 : MeasurementTimeline M) (t : TimePoint) (h : Good s)
    (hs : s.removeProcessedMeas t = some s1) (hmin : ∀ k ∈ s.times, t ≤ k) : Good s1 := by
  unfold removeProcessedMeas at hs
  split at hs
  · cases hs
    refine ⟨MeasMap.erase_WF _ _ h.1, ?_⟩
    intro _ k hk
    have hk2 := (MeasMap.mem_keys_erase s.measMap t k).1 hk
    exact lt_of_le_of_ne (hmin k hk2.1) (fun h2 => hk2.2 h2.symm)
  · simp at hs

theorem good_clear (s : MeasurementTimeline M) : Good s.clear := by
  constructor
  · exact List.Pairwise.nil
  · intro h
    simp [clear] at h

theorem split_cases (s : MeasurementTimeline M) (t0 t1 t2 : TimePoint)
    (res : BinaryResidualBase M) :
    (s.split t0 t1 t2 res = .error (s.addMeas none t1) ∧
      ((s.addMeas none t1).measMap.at? t2 = none ∨ (s.addMeas none t1).measMap.at? t1 = none)) ∨
    ∃ m2 m1, (s.addMeas none t1).measMap.at? t2 = some m2 ∧
      (s.addMeas none t1).measMap.at? t1 = some m1 ∧
      s.split t0 t1 t2 res = .ok { s.addMeas none t1 with
        measMap := ((s.addMeas none t1).measMap.assign t1
          (res.splitMeasurements m2 t0 t1 t2).1).assign t2
          (res.splitMeasurements m2 t0 t1 t2).2 } := by
  unfold split
  cases h2 : (s.addMeas none t1).measMap.at? t2 with
  | none => exact Or.inl ⟨by simp [h2], Or.inl rfl⟩
  | some m2 =>
    cases h1 : (s.addMeas none t1).measMap.at? t1 with
    | none => exact Or.inl ⟨by simp [h2, h1], Or.inr rfl⟩
    | some m1 => exact Or.inr ⟨m2, m1, rfl, rfl, by simp [h2, h1]⟩

theorem split_state_frame (s : MeasurementTimeline M) (t0 t1 t2 : TimePoint)
    (res : BinaryResidualBase M) :
    (s.split t0 t1 t2 res).state.times = (s.addMeas none t1).times ∧
    (s.split t0 t1 t2 res).state.lastProcessedTime = s.lastProcessedTime ∧
    (s.split t0 t1 t2 res).state.hasProcessedTime = s.hasProcessedTime := by
  rcases split_cases s t0 t1 t2 res with ⟨h, _⟩ | ⟨m2, m1, _, _, h⟩
  · rw [h]
    exact ⟨rfl, addMeas_lastProcessedTime s none t1, addMeas_hasProcessedTime s none t1⟩
  · rw [h]
    refine ⟨?_, addMeas_lastProcessedTime s none t1, addMeas_hasProcessedTime s none t1⟩
    show MeasMap.keys (MeasMap.assign (MeasMap.assign _ _ _) _ _) = _
    rw [MeasMap.keys_assign, MeasMap.keys_assign]
    rfl

theorem good_of_frame (s s1 : MeasurementTimeline M) (h : Good s)
    (ht : s1.times = s.times) (hl : s1.lastProcessedTime = s.lastProcessedTime)
    (hh : s1.hasProcessedTime = s.hasProcessedTime) : Good s1 := by
  constructor
  · show (MeasMap.keys s1.measMap).Pairwise (· < ·)
    have : MeasMap.keys s1.measMap = MeasMap.keys s.measMap := ht
    rw [this]
    exact h.1
  · intro hhas k hk
    rw [hl]
    rw [hh] at hhas
    rw [ht] at hk
    exact h.2 hhas k hk

theorem good_split (s : MeasurementTimeline M) (t0 t1 t2 : TimePoint)
    (res : BinaryResidualBase M) (h : Good s) : Good (s.split t0 t1 t2 res).state := by
  have hf := split_state_frame s t0 t1 t2 res
  refine good_of_frame (s.addMeas none t1) _ (good_addMeas s none t1 h) hf.1 ?_ ?_
  · rw [hf.2.1, addMeas_lastProcessedTime]
  · rw [hf.2.2, addMeas_hasProcessedTime]

theorem good_splitStep (s : MeasurementTimeline M) (t : TimePoint)
    (res : BinaryResidualBase M) (h : Good s) : Good (s.splitStep t res).state := by
  unfold splitStep
  split
  · exact h
  · exact good_split s _ _ _ res h

theorem good_splitBatch (times : TimeSet) (res : BinaryResidualBase M) :
    ∀ s : MeasurementTimeline M, Good s → Good (s.splitBatch times res).state := by
  induction times with
  | nil => intro s h; exact h
  | cons t ts ih =>
    intro s h
    have hstep := good_splitStep s t res h
    unfold splitBatch
    cases hs : s.splitStep t res with
    | ok s1 =>
      rw [hs] at hstep
      exact ih s1 hstep
    | error s1 =>
      rw [hs] at hstep
      exact hstep

theorem merge_cases (s : MeasurementTimeline M) (t0 t1 t2 : TimePoint)
    (res : BinaryResidualBase M) :
    (s.merge t0 t1 t2 res = .error s ∧ (s.measMap.at? t1 = none ∨ s.measMap.at? t2 = none)) ∨
    ∃ m1 m2, s.measMap.at? t1 = some m1 ∧ s.measMap.at? t2 = some m2 ∧
      s.merge t0 t1 t2 res = .ok { s with
        measMap := (s.measMap.assign t2 (res.mergeMeasurements m1 m2 t0 t1 t2)).erase t1 } := by
  unfold merge
  cases h1 : s.measMap.at? t1 with
  | none => exact Or.inl ⟨by simp [h1], Or.inl rfl⟩
  | some m1 =>
    cases h2 : s.measMap.at? t2 with
    | none => exact Or.inl ⟨by simp [h1, h2], Or.inr rfl⟩
    | some m2 => exact Or.inr ⟨m1, m2, rfl, rfl, by simp [h1, h2]⟩

theorem good_merge (s : MeasurementTimeline M) (t0 t1 t2 : TimePoint)
    (res : BinaryResidualBase M) (h : Good s) : Good (s.merge t0 t1 t2 res).state := by
  rcases merge_cases s t0 t1 t2 res with ⟨hm, _⟩ | ⟨m1, m2, _, _, hm⟩
  · rw [hm]
    exact h
  · rw [hm]
    refine ⟨MeasMap.erase_WF _ _ (MeasMap.assign_WF _ _ _ h.1), ?_⟩
    intro hhas k hk
    have hk2 := ((MeasMap.mem_keys_erase _ t1 k).1 hk).1
    rw [MeasMap.keys_assign] at hk2
    exact h.2 hhas k hk2

theorem good_of_reachableInOrder (s : MeasurementTimeline M) (h : ReachableInOrder s) :
    Good s := by
  induction h with
  | new a b => exact good_new a b
  | addMeas meas t _ ih => exact good_addMeas _ meas t ih
  | removeProcessedFirst _ hs ih => exact good_removeProcessedFirst _ _ ih hs
  | removeProcessedMeas t _ hs hmin ih => exact good_removeProcessedMeas _ _ t ih hs hmin
  | clear _ _ => exact good_clear _
  | split t0 t1 t2 res _ ih => exact good_split _ t0 t1 t2 res ih
  | splitBatch times res _ ih => exact good_splitBatch times res _ ih
  | merge t0 t1 t2 res _ ih => exact good_merge _ t0 t1 t2 res ih

theorem reachable_sample : Reachable sample := by
  have h : sample = (((new 10 0).addMeas (some 1) 10).addMeas (some 2) 20).addMeas (some 3) 30 := by
    decide
  rw [h]
  exact Reachable.addMeas _ _ (Reachable.addMeas _ _ (Reachable.addMeas _ _ (Reachable.new _ _)))

theorem reachable_outOfOrder : Reachable outOfOrder :=
  Reachable.removeProcessedMeas 20 reachable_sample (by decide)

theorem reachableInOrder_sampleProcessed : ReachableInOrder sampleProcessed := by
  have h : sample = (((new 10 0).addMeas (some 1) 10).addMeas (some 2) 20).addMeas (some 3) 30 := by
    decide
  have hs : ReachableInOrder sample := by
    rw [h]
    exact ReachableInOrder.addMeas _ _
      (ReachableInOrder.addMeas _ _ (ReachableInOrder.addMeas _ _ (ReachableInOrder.new _ _)))
  exact ReachableInOrder.removeProcessedFirst hs (by decide)

/-- Counterexample to C2: after `addMeas` at 10, 20 and 30 and `removeProcessedMeas(20)` the
watermark is 20 while the time 10 is still stored. -/
theorem watermarkInv_fails_after_removeProcessedMeas :
    Reachable outOfOrder ∧ ¬ WatermarkInv outOfOrder :=
  ⟨reachable_outOfOrder, by decide⟩

/-- C2, amended: in every state reached from a new timeline by `addMeas`,
`removeProcessedFirst`, `removeProcessedMeas(t)` for the earliest stored time `t`, `split`
(both forms), `merge` and `clear`, every stored time is after the watermark once one exists. -/
theorem watermarkInv_of_reachableInOrder (s : MeasurementTimeline M)
    (h : ReachableInOrder s) : WatermarkInv s :=
  (good_of_reachableInOrder s h).2

/-- Witness of the amended C2 on the timeline with watermark 10 and samples at 20 and 30. -/
theorem watermarkInv_of_reachableInOrder_witness :
    ReachableInOrder sampleProcessed ∧ WatermarkInv sampleProcessed :=
  ⟨reachableInOrder_sampleProcessed,
   watermarkInv_of_reachableInOrder sampleProcessed reachableInOrder_sampleProcessed⟩

/-! ### The wait time policy -/

/-- C3: `getMaximalUpdateTime(currentTime)` is `max(currentTime - maxWaitTime, L + minWaitTime)`
with `L` the newest stored time when the map is not empty, else the watermark when one
exists, and `currentTime - maxWaitTime` when there is neither. It is never below
`currentTime - maxWaitTime`, and never below a stored time plus `minWaitTime`; the newest
stored time is the greatest one. -/
theorem getMaximalUpdateTime_spec (s : MeasurementTimeline M) (currentTime : TimePoint)
    (hwf : s.measMap.WF) :
    (∀ e, s.measMap.getLast? = some e →
      (∀ k ∈ s.times, k ≤ e.1) ∧
      s.getMaximalUpdateTime currentTime =
        max (currentTime - s.maxWaitTime) (e.1 + s.minWaitTime)) ∧
    (s.measMap = [] → s.hasProcessedTime = true →
      s.getMaximalUpdateTime currentTime =
        max (currentTime - s.maxWaitTime) (s.lastProcessedTime + s.minWaitTime)) ∧
    (s.measMap = [] → s.hasProcessedTime = false →
      s.getMaximalUpdateTime currentTime = currentTime - s.maxWaitTime) ∧
    currentTime - s.maxWaitTime ≤ s.getMaximalUpdateTime currentTime ∧
    (∀ k ∈ s.times, k + s.minWaitTime ≤ s.getMaximalUpdateTime currentTime) := by
  refine ⟨?_, ?_, ?_, ?_, ?_⟩
  · intro e he
    refine ⟨MeasMap.getLast?_max s.measMap hwf e he, ?_⟩
    simp [getMaximalUpdateTime, he]
  · intro hm hh
    simp [getMaximalUpdateTime, hm, hh]
  · intro hm hh
    simp [getMaximalUpdateTime, hm, hh]
  · unfold getMaximalUpdateTime
    cases s.measMap.getLast? with
    | some e => exact le_max_left _ _
    | none =>
      by_cases hh : s.hasProcessedTime = true
      · simp [hh]
      · simp [hh]
  · intro k hk
    unfold getMaximalUpdateTime
    cases he : s.measMap.getLast? with
    | some e =>
      have hmax := MeasMap.getLast?_max s.measMap hwf e he k hk
      exact le_trans (add_le_add_right hmax _) (le_max_right _ _)
    | none =>
      rw [List.getLast?_eq_none_iff] at he
      unfold times at hk
      rw [he] at hk
      simp [MeasMap.keys] at hk

/-- Witness of C3 on the timeline with samples at 10, 20, 30: the result at 35 is not
below the newest sample. -/
theorem getMaximalUpdateTime_spec_witness :
    sample.measMap.WF ∧ (30 : Int) + sample.minWaitTime ≤ sample.getMaximalUpdateTime 35 :=
  ⟨by decide, (getMaximalUpdateTime_spec sample 35 (by decide)).2.2.2.2 30 (by decide)⟩

theorem scenario_measMap (h : Int) (hpos : 0 < h) (m1 m2 m3 : MeasPtr M) :
    (scenario h m1 m2 m3).measMap = [(2 * h, m1), (4 * h, m2), (6 * h, m3)] := by
  have h1 : ¬ (4 * h < 2 * h) := by linarith
  have h2 : ¬ (4 * h = 2 * h) := by intro hh; linarith
  have h3 : ¬ (6 * h < 2 * h) := by linarith
  have h4 : ¬ (6 * h = 2 * h) := by intro hh; linarith
  have h5 : ¬ (6 * h < 4 * h) := by linarith
  have h6 : ¬ (6 * h = 4 * h) := by intro hh; linarith
  simp [scenario, addMeas, new, MeasMap.insert, h1, h2, h3, h4, h5, h6]

/-- Counterexample to C4: with nanosecond ticks, the scenario timeline (`minWaitTime` 0 s,
`maxWaitTime` 1 s, samples at 1.0 s, 2.0 s, 3.0 s, no watermark) does not return 2.5 s for
`getMaximalUpdateTime(3.5 s)`. -/
theorem scenario_getMaximalUpdateTime_ne :
    (scenario 500000000 (some 1) (some 2) (some 3) : MeasurementTimeline Nat).getMaximalUpdateTime
      3500000000 ≠ 2500000000 := by
  decide

/-- C4, amended: on the scenario timeline, whatever the tick count `h` of half a second,
`getMaximalUpdateTime(3.5 s)` returns 3.0 s, the newest sample time plus `minWaitTime`,
which exceeds `3.5 s - maxWaitTime = 2.5 s`. -/
theorem scenario_getMaximalUpdateTime (h : Int) (hpos : 0 < h) (m1 m2 m3 : MeasPtr M) :
    (scenario h m1 m2 m3).getMaximalUpdateTime (7 * h) = 6 * h := by
  have hm := scenario_measMap h hpos m1 m2 m3
  have hmin : (scenario h m1 m2 m3).minWaitTime = 0 := by
    simp [scenario, addMeas, new]
  have hmax : (scenario h m1 m2 m3).maxWaitTime = 2 * h := by
    simp [scenario, addMeas, new]
  unfold getMaximalUpdateTime
  rw [hm, hmin, hmax]
  show max (7 * h - 2 * h) (6 * h + 0) = 6 * h
  rw [max_eq_right (by linarith)]
  ring

/-- Witness of the amended C4 with nanosecond ticks. -/
theorem scenario_getMaximalUpdateTime_witness :
    (0 : Int) < 500000000 ∧
    (scenario 500000000 (some 1) (some 2) (some 3) : MeasurementTimeline Nat).getMaximalUpdateTime
      (7 * 500000000) = 6 * 500000000 :=
  ⟨by decide, scenario_getMaximalUpdateTime 500000000 (by decide) (some 1) (some 2) (some 3)⟩

/-! ### Single split and merge -/

theorem split_ok (s : MeasurementTimeline M) (t0 t1 t2 : TimePoint) (res : BinaryResidualBase M)
    (m : MeasPtr M) (h12 : t1 ≠ t2) (hm : s.measMap.at? t2 = some m) (h1 : t1 ∉ s.times)
    (hw : s.hasProcessedTime = true → s.lastProcessedTime < t1) :
    s.split t0 t1 t2 res = .ok { s with
      measMap := (((s.measMap.insert t1 none).1.assign t1
        (res.splitMeasurements m t0 t1 t2).1).assign t2 (res.splitMeasurements m t0 t1 t2).2) } := by
  have hacc : ¬ (s.hasProcessedTime = true ∧ t1 ≤ s.lastProcessedTime) := by
    rintro ⟨hh, hle⟩
    exact absurd (hw hh) (not_lt.2 hle)
  have ha := addMeas_accepted s none t1 hacc
  have h21 : ¬ t2 = t1 := fun h => h12 h.symm
  have hat2 : (s.addMeas none t1).measMap.at? t2 = some m := by
    rw [ha]
    show MeasMap.at? (s.measMap.insert t1 none).1 t2 = some m
    rw [MeasMap.at?_insert _ _ _ h1, if_neg h21, hm]
  have hat1 : (s.addMeas none t1).measMap.at? t1 = some none := by
    rw [ha]
    show MeasMap.at? (s.measMap.insert t1 none).1 t1 = some none
    rw [MeasMap.at?_insert _ _ _ h1, if_pos rfl]
  unfold split
  simp only [hat2, hat1]
  rw [ha]

/-- C5: for `t0 < t1 < t2` with `t2` stored, `t1` not stored and after any watermark, and a
residual whose `mergeMeasurements` undoes its `splitMeasurements` on the measurement at `t2`,
`split(t0, t1, t2, r)` returns and `merge(t0, t1, t2, r)` on its result returns the original
timeline: same map (times and measurements), same watermark and flag. -/
theorem split_then_merge (s : MeasurementTimeline M) (t0 t1 t2 : TimePoint)
    (res : BinaryResidualBase M) (m : MeasPtr M) (_h01 : t0 < t1) (h12 : t1 < t2)
    (hm : s.measMap.at? t2 = some m) (h1 : t1 ∉ s.times)
    (hw : s.hasProcessedTime = true → s.lastProcessedTime < t1)
    (hinv : res.mergeMeasurements (res.splitMeasurements m t0 t1 t2).1
      (res.splitMeasurements m t0 t1 t2).2 t0 t1 t2 = m) :
    ∃ s1, s.split t0 t1 t2 res = .ok s1 ∧ s1.merge t0 t1 t2 res = .ok s := by
  have hne : t1 ≠ t2 := ne_of_lt h12
  have h21 : ¬ t2 = t1 := fun h => hne h.symm
  have hk1 : t1 ∉ MeasMap.keys s.measMap := h1
  refine ⟨_, split_ok s t0 t1 t2 res m hne hm h1 hw, ?_⟩
  have hins1 : MeasMap.at? (s.measMap.insert t1 none).1 t1 = some none := by
    rw [MeasMap.at?_insert _ _ _ hk1, if_pos rfl]
  have hins2 : MeasMap.at? (s.measMap.insert t1 none).1 t2 = some m := by
    rw [MeasMap.at?_insert _ _ _ hk1, if_neg h21, hm]
  have hat1 : MeasMap.at? (MeasMap.assign (MeasMap.assign (s.measMap.insert t1 none).1 t1
      (res.splitMeasurements m t0 t1 t2).1) t2 (res.splitMeasurements m t0 t1 t2).2) t1 =
      some (res.splitMeasurements m t0 t1 t2).1 := by
    rw [MeasMap.at?_assign, if_neg hne, MeasMap.at?_assign, if_pos rfl, hins1]
    rfl
  have hat2 : MeasMap.at? (MeasMap.assign (MeasMap.assign (s.measMap.insert t1 none).1 t1
      (res.splitMeasurements m t0 t1 t2).1) t2 (res.splitMeasurements m t0 t1 t2).2) t2 =
      some (res.splitMeasurements m t0 t1 t2).2 := by
    rw [MeasMap.at?_assign, if_pos rfl, MeasMap.at?_assign, if_neg h21, hins2]
    rfl
  unfold merge
  simp only [hat1, hat2]
  rw [hinv, MeasMap.assign_assign, MeasMap.erase_assign_of_ne _ _ _ _ h21,
    MeasMap.erase_assign_same, MeasMap.erase_insert _ _ _ hk1, MeasMap.assign_of_at? _ _ _ hm]

/-- Witness of C5: on the timeline with samples at 10, 20, 30 and the halving residual,
splitting the sample at 20 at the time 15 and merging again gives the timeline back. -/
theorem split_then_merge_witness :
    ((10 : Int) < 15 ∧ (15 : Int) < 20) ∧
    ∃ s1, sample.split 10 15 20 halving = .ok s1 ∧ s1.merge 10 15 20 halving = .ok sample :=
  ⟨by decide, split_then_merge sample 10 15 20 halving (some 2) (by decide) (by decide)
    (by decide) (by decide) (by decide) (by decide)⟩

/-- C10: for distinct stored times `t1` and `t2`, `merge(t0, t1, t2, r)` returns; it removes
the entry at `t1`, puts the output of `r.mergeMeasurements` on the measurements at `t1` and
`t2` at `t2`, keeps every other entry, and keeps the watermark, its flag and the wait times. -/
theorem merge_spec (s : MeasurementTimeline M) (t0 t1 t2 : TimePoint)
    (res : BinaryResidualBase M) (m1 m2 : MeasPtr M) (h1 : s.measMap.at? t1 = some m1)
    (h2 : s.measMap.at? t2 = some m2) (hne : t1 ≠ t2) :
    ∃ s1, s.merge t0 t1 t2 res = .ok s1 ∧
      s1.measMap.at? t1 = none ∧
      s1.measMap.at? t2 = some (res.mergeMeasurements m1 m2 t0 t1 t2) ∧
      (∀ k, k ≠ t1 → k ≠ t2 → s1.measMap.at? k = s.measMap.at? k) ∧
      (∀ k, k ∈ s1.times ↔ k ∈ s.times ∧ k ≠ t1) ∧
      s1.lastProcessedTime = s.lastProcessedTime ∧
      s1.hasProcessedTime = s.hasProcessedTime ∧
      s1.maxWaitTime = s.maxWaitTime ∧ s1.minWaitTime = s.minWaitTime := by
  have h21 : ¬ t2 = t1 := fun h => hne h.symm
  refine ⟨{ s with measMap :=
    (s.measMap.assign t2 (res.mergeMeasurements m1 m2 t0 t1 t2)).erase t1 }, ?_, ?_, ?_, ?_, ?_,
    rfl, rfl, rfl, rfl⟩
  · unfold merge
    simp only [h1, h2]
  · show MeasMap.at? (MeasMap.erase _ _) _ = _
    rw [MeasMap.at?_erase, if_pos rfl]
  · show MeasMap.at? (MeasMap.erase _ _) _ = _
    rw [MeasMap.at?_erase, if_neg h21, MeasMap.at?_assign, if_pos rfl, h2]
    rfl
  · intro k hk1 hk2
    show MeasMap.at? (MeasMap.erase _ _) _ = _
    rw [MeasMap.at?_erase, if_neg hk1, MeasMap.at?_assign, if_neg hk2]
  · intro k
    show k ∈ MeasMap.keys (MeasMap.erase _ _) ↔ _
    rw [MeasMap.mem_keys_erase, MeasMap.keys_assign]
    rfl

/-- Witness of C10: merging the sample at 10 into the one at 20. -/
theorem merge_spec_witness :
    (sample.measMap.at? 10 = some (some 1) ∧ sample.measMap.at? 20 = some (some 2)) ∧
    ∃ s1, sample.merge 0 10 20 halving = .ok s1 ∧ s1.measMap.at? 10 = none ∧
      s1.measMap.at? 20 = some (halving.mergeMeasurements (some 1) (some 2) 0 10 20) :=
  ⟨by decide,
   (merge_spec sample 0 10 20 halving (some 1) (some 2) (by decide) (by decide) (by decide)).imp
     (fun _ h => ⟨h.1, h.2.1, h.2.2.1⟩)⟩

/-- Counterexample to C8, on the timeline with samples at 10, 20, 30 and no watermark:
`split(10, 15, 25, r)`, whose `t2` is not stored, leaves a null entry at 15 behind, and
`split(10, 20, 30, r)`, whose `t1` is already stored, overwrites the measurements at 20
and 30. -/
theorem split_invalid_changes_map :
    ((25 : Int) ∉ sample.times ∧
      (sample.split 10 15 25 halving).state.measMap =
        [(10, some 1), (15, none), (20, some 2), (30, some 3)]) ∧
    ((20 : Int) ∈ sample.times ∧
      (sample.split 10 20 30 halving).state.measMap =
        [(10, some 1), (20, some 1), (30, some 2)]) := by
  decide

theorem split_error_of_rejected (s : MeasurementTimeline M) (t0 t1 t2 : TimePoint)
    (res : BinaryResidualBase M) (hwf : s.measMap.WF)
    (hrej : (s.hasProcessedTime = true ∧ t1 ≤ s.lastProcessedTime) ∨ t1 ∈ s.times)
    (habs : t1 ∉ s.times ∨ t2 ∉ s.times) :
    s.split t0 t1 t2 res = .error s := by
  have hsame : s.addMeas none t1 = s := by
    by_cases hr : s.hasProcessedTime = true ∧ t1 ≤ s.lastProcessedTime
    · exact addMeas_rejected s none t1 hr
    · have ht : t1 ∈ MeasMap.keys s.measMap := by
        rcases hrej with h | h
        · exact absurd h hr
        · exact h
      rw [addMeas_accepted s none t1 hr]
      show { s with measMap := (s.measMap.insert t1 none).1 } = s
      rw [MeasMap.insert_of_mem _ _ _ hwf ht]
  rcases split_cases s t0 t1 t2 res with ⟨h, _⟩ | ⟨m2, m1, h2, h1, _⟩
  · rw [h, hsame]
  · rw [hsame] at h1 h2
    rcases habs with h | h
    · exact absurd (MeasMap.mem_of_at? _ _ _ h1) h
    · exact absurd (MeasMap.mem_of_at? _ _ _ h2) h

/-- C8, amended: when `addMeas` does not insert `t1` (it is at or before the watermark,
or already stored) and `t1` or `t2` is not a stored time, `split(t0, t1, t2, r)` throws
out of `at` before the residual is called and leaves the whole timeline, map, watermark
and flag, as it was. -/
theorem split_rejected_noop (s : MeasurementTimeline M) (t0 t1 t2 : TimePoint)
    (res : BinaryResidualBase M) (hwf : s.measMap.WF)
    (hrej : (s.hasProcessedTime = true ∧ t1 ≤ s.lastProcessedTime) ∨ t1 ∈ s.times)
    (habs : t1 ∉ s.times ∨ t2 ∉ s.times) :
    s.split t0 t1 t2 res = .error s :=
  split_error_of_rejected s t0 t1 t2 res hwf hrej habs

/-- Witness of the amended C8: with watermark 10 and samples at 20 and 30, a split at
the time 5 before the watermark changes nothing. -/
theorem split_rejected_noop_witness :
    (sampleProcessed.measMap.WF ∧
      (sampleProcessed.hasProcessedTime = true ∧ (5 : Int) ≤ sampleProcessed.lastProcessedTime) ∧
      (5 : Int) ∉ sampleProcessed.times) ∧
    sampleProcessed.split 0 5 20 halving = .error sampleProcessed :=
  ⟨by decide,
   split_rejected_noop sampleProcessed 0 5 20 halving (by decide) (Or.inl (by decide))
     (Or.inl (by decide))⟩

/-! ### The batch form of split -/

theorem splitRequest_some (s : MeasurementTimeline M) (t : TimePoint)
    (a : TimePoint × TimePoint × TimePoint) (hwf : s.measMap.WF)
    (h : s.splitRequest t = some a) :
    a.2.1 = t ∧ a.2.2 ∈ s.times ∧ t < a.2.2 ∧ t ∉ s.times ∧
    (∀ k ∈ s.times, t ≤ k → a.2.2 ≤ k) ∧
    ((a.1 ∈ s.times ∧ a.1 < t ∧ ∀ k ∈ s.times, k < a.2.2 → k ≤ a.1) ∨
     (a.1 = s.lastProcessedTime ∧ s.hasProcessedTime = true ∧ s.lastProcessedTime < t ∧
       ∀ k ∈ s.times, a.2.2 ≤ k)) := by
  unfold splitRequest at h
  simp only at h
  split at h
  · rename_i hit
    split at h
    · exact absurd h (by simp)
    · rename_i hguard
      split at h
      · exact absurd h (by simp)
      · rename_i hne
        have ha := (Option.some.inj h).symm
        have hle := MeasMap.le_get_lowerBound s.measMap t hit
        have hlt : t < (s.measMap.get ⟨s.measMap.lowerBound t, hit⟩).1 :=
          lt_of_le_of_ne hle (fun h2 => hne h2.symm)
        have hbefore : ∀ (j : Nat) (hj : j < s.measMap.length),
            t ≤ (s.measMap.get ⟨j, hj⟩).1 → s.measMap.lowerBound t ≤ j := by
          intro j hj hge
          by_contra hcon
          exact absurd (MeasMap.lt_of_lt_lowerBound s.measMap t j hj (Nat.lt_of_not_le hcon))
            (not_lt.2 hge)
        have hfirst : ∀ k ∈ s.times, t ≤ k →
            (s.measMap.get ⟨s.measMap.lowerBound t, hit⟩).1 ≤ k := by
          intro k hk hge
          obtain ⟨j, hj, rfl⟩ := (MeasMap.mem_keys_iff_get s.measMap k).1 hk
          exact MeasMap.get_le_get s.measMap hwf _ j hit hj (hbefore j hj hge)
        have hnot : t ∉ s.times := by
          intro hk
          have := hfirst t hk (le_refl t)
          exact absurd hlt (not_lt.2 this)
        rw [ha]
        refine ⟨rfl, MeasMap.get_mem_keys s.measMap _ hit, hlt, hnot, hfirst, ?_⟩
        by_cases h0 : s.measMap.lowerBound t = 0
        · right
          have hg : ¬ (s.hasProcessedTime = false ∨ s.lastProcessedTime ≥ t) :=
            fun hg => hguard ⟨h0, hg⟩
          rw [not_or] at hg
          have hhas : s.hasProcessedTime = true := by simpa using hg.1
          refine ⟨by simp [h0], hhas, not_le.1 hg.2, ?_⟩
          intro k hk
          obtain ⟨j, hj, rfl⟩ := (MeasMap.mem_keys_iff_get s.measMap k).1 hk
          exact MeasMap.get_le_get s.measMap hwf _ j hit hj (by omega)
        · left
          have hp : s.measMap.lowerBound t - 1 < s.measMap.length := by omega
          have hpeq : (if s.measMap.lowerBound t = 0 then s.lastProcessedTime
              else (s.measMap.get ⟨s.measMap.lowerBound t - 1, hp⟩).1) =
              (s.measMap.get ⟨s.measMap.lowerBound t - 1, hp⟩).1 := if_neg h0
          show (if s.measMap.lowerBound t = 0 then s.lastProcessedTime
              else (s.measMap.get ⟨s.measMap.lowerBound t - 1, hp⟩).1) ∈ s.times ∧ _
          rw [hpeq]
          refine ⟨MeasMap.get_mem_keys s.measMap _ hp,
            MeasMap.lt_of_lt_lowerBound s.measMap t _ hp (by omega), ?_⟩
          intro k hk hkn
          obtain ⟨j, hj, rfl⟩ := (MeasMap.mem_keys_iff_get s.measMap k).1 hk
          have hjlt : j < s.measMap.lowerBound t := by
            by_contra hcon
            exact absurd hkn (not_lt.2
              (MeasMap.get_le_get s.measMap hwf _ j hit hj (Nat.le_of_not_lt hcon)))
          exact MeasMap.get_le_get s.measMap hwf j _ hj hp (by omega)
  · exact absurd h (by simp)

theorem splitRequest_none (s : MeasurementTimeline M) (t : TimePoint) (hwf : s.measMap.WF)
    (h : s.splitRequest t = none) :
    (∀ k ∈ s.times, k < t) ∨
    ((∀ k ∈ s.times, t ≤ k) ∧ ¬ (s.hasProcessedTime = true ∧ s.lastProcessedTime < t)) ∨
    t ∈ s.times := by
  unfold splitRequest at h
  simp only at h
  split at h
  · rename_i hit
    split at h
    · rename_i hguard
      right; left
      constructor
      · intro k hk
        obtain ⟨j, hj, rfl⟩ := (MeasMap.mem_keys_iff_get s.measMap k).1 hk
        exact le_trans (MeasMap.le_get_lowerBound s.measMap t hit)
          (MeasMap.get_le_get s.measMap hwf _ j hit hj (by omega))
      · rintro ⟨hh, hl⟩
        rcases hguard.2 with hg | hg
        · rw [hh] at hg
          exact absurd hg (by simp)
        · exact absurd hl (not_lt.2 hg)
    · split at h
      · rename_i heq
        right; right
        rw [← heq]
        exact MeasMap.get_mem_keys s.measMap _ hit
      · exact absurd h (by simp)
  · rename_i hit
    left
    exact (MeasMap.lowerBound_eq_length_iff s.measMap t).1
      (Nat.le_antisymm (MeasMap.lowerBound_le _ _) (Nat.le_of_not_lt hit))

theorem splitCallOk_of_request (s : MeasurementTimeline M) (t : TimePoint)
    (a : TimePoint × TimePoint × TimePoint) (hwf : s.measMap.WF)
    (h : s.splitRequest t = some a) : a.2.1 = t ∧ SplitCallOk (s, a) := by
  obtain ⟨h1, h2, h3, _, h5, h6⟩ := splitRequest_some s t a hwf h
  refine ⟨h1, ?_, ?_, ⟨h2, ?_⟩, ?_⟩
  · show a.1 < a.2.1
    rw [h1]
    rcases h6 with h6 | h6
    · exact h6.2.1
    · rw [h6.1]
      exact h6.2.2.1
  · show a.2.1 < a.2.2
    rw [h1]
    exact h3
  · show ∀ k ∈ s.times, a.2.1 ≤ k → a.2.2 ≤ k
    rw [h1]
    exact h5
  · rcases h6 with h6 | h6
    · exact Or.inl ⟨h6.1, h6.2.2⟩
    · exact Or.inr ⟨h6.1, h6.2.1, h6.2.2.2⟩

theorem splitStep_good (s : MeasurementTimeline M) (t : TimePoint) (res : BinaryResidualBase M)
    (hg : Good s) :
    ∃ s1, s.splitStep t res = .ok s1 ∧ Good s1 ∧
      (∀ k, k ∈ s1.times ↔ k ∈ s.times ∨ (k = t ∧ SplitCond s t)) ∧
      s1.lastProcessedTime = s.lastProcessedTime ∧
      s1.hasProcessedTime = s.hasProcessedTime := by
  cases hreq : s.splitRequest t with
  | none =>
    refine ⟨s, by simp [splitStep, hreq], hg, ?_, rfl, rfl⟩
    intro k
    constructor
    · exact fun hk => Or.inl hk
    · rintro (hk | ⟨rfl, hc⟩)
      · exact hk
      · rcases splitRequest_none s k hg.1 hreq with h | h | h
        · obtain ⟨k2, hk2, hle⟩ := hc.1
          exact absurd (h k2 hk2) (not_lt.2 hle)
        · rcases hc.2 with ⟨k2, hk2, hlt⟩ | hw
          · exact absurd hlt (not_lt.2 (h.1 k2 hk2))
          · exact absurd hw h.2
        · exact h
  | some a =>
    obtain ⟨h1, h2, h3, h4, _, h6⟩ := splitRequest_some s t a hg.1 hreq
    obtain ⟨m, hm⟩ := MeasMap.at?_of_mem s.measMap a.2.2 h2
    have hw : s.hasProcessedTime = true → s.lastProcessedTime < t := by
      intro hh
      rcases h6 with h6 | h6
      · exact lt_trans (hg.2 hh a.1 h6.1) h6.2.1
      · exact h6.2.2.1
    have hc : SplitCond s t := by
      refine ⟨⟨a.2.2, h2, le_of_lt h3⟩, ?_⟩
      rcases h6 with h6 | h6
      · exact Or.inl ⟨a.1, h6.1, h6.2.1⟩
      · exact Or.inr ⟨h6.2.1, h6.2.2.1⟩
    have hok := split_ok s a.1 t a.2.2 res m (ne_of_lt h3) hm h4 hw
    have hstep : s.splitStep t res = s.split a.1 t a.2.2 res := by
      simp [splitStep, hreq, h1]
    have hgood := good_split s a.1 t a.2.2 res hg
    rw [hok] at hgood
    refine ⟨_, hstep.trans hok, hgood, ?_, rfl, rfl⟩
    intro k
    show k ∈ MeasMap.keys (MeasMap.assign (MeasMap.assign _ _ _) _ _) ↔ _
    rw [MeasMap.keys_assign, MeasMap.keys_assign, MeasMap.mem_keys_insert]
    constructor
    · rintro (hk | hk)
      · exact Or.inr ⟨hk, hc⟩
      · exact Or.inl hk
    · rintro (hk | ⟨hk, _⟩)
      · exact Or.inr hk
      · exact Or.inl hk

theorem splitCond_congr (s s1 : MeasurementTimeline M) (t u : TimePoint)
    (ht : ∀ k, k ∈ s1.times ↔ k ∈ s.times ∨ (k = t ∧ SplitCond s t))
    (hl : s1.lastProcessedTime = s.lastProcessedTime)
    (hh : s1.hasProcessedTime = s.hasProcessedTime) : SplitCond s1 u ↔ SplitCond s u := by
  unfold SplitCond
  rw [hl, hh]
  constructor
  · rintro ⟨⟨k, hk, hle⟩, h2⟩
    constructor
    · rcases (ht k).1 hk with hk | ⟨rfl, hc⟩
      · exact ⟨k, hk, hle⟩
      · obtain ⟨k2, hk2, hle2⟩ := hc.1
        exact ⟨k2, hk2, le_trans hle hle2⟩
    · rcases h2 with ⟨k, hk, hlt⟩ | hw
      · rcases (ht k).1 hk with hk | ⟨rfl, hc⟩
        · exact Or.inl ⟨k, hk, hlt⟩
        · rcases hc.2 with ⟨k2, hk2, hlt2⟩ | hw
          · exact Or.inl ⟨k2, hk2, lt_trans hlt2 hlt⟩
          · exact Or.inr ⟨hw.1, lt_trans hw.2 hlt⟩
      · exact Or.inr hw
  · rintro ⟨⟨k, hk, hle⟩, h2⟩
    constructor
    · exact ⟨k, (ht k).2 (Or.inl hk), hle⟩
    · rcases h2 with ⟨k, hk, hlt⟩ | hw
      · exact Or.inl ⟨k, (ht k).2 (Or.inl hk), hlt⟩
      · exact Or.inr hw

theorem splitBatch_good (times : TimeSet) (res : BinaryResidualBase M) :
    ∀ s : MeasurementTimeline M, Good s →
    ∃ s1, s.splitBatch times res = .ok s1 ∧ Good s1 ∧
      (∀ k, k ∈ s1.times ↔ k ∈ s.times ∨ (k ∈ times ∧ SplitCond s k)) ∧
      s1.lastProcessedTime = s.lastProcessedTime ∧
      s1.hasProcessedTime = s.hasProcessedTime ∧
      ∀ c ∈ s.splitBatchCalls times res, c.2.2.1 ∈ times ∧ SplitCallOk c := by
  induction times with
  | nil =>
    intro s hg
    exact ⟨s, rfl, hg, by simp, rfl, rfl, by simp [splitBatchCalls]⟩
  | cons t ts ih =>
    intro s hg
    obtain ⟨s1, hstep, hg1, ht1, hl1, hh1⟩ := splitStep_good s t res hg
    obtain ⟨s2, hb, hg2, ht2, hl2, hh2, hc2⟩ := ih s1 hg1
    refine ⟨s2, ?_, hg2, ?_, hl2.trans hl1, hh2.trans hh1, ?_⟩
    · rw [splitBatch, hstep]
      exact hb
    · intro k
      rw [ht2 k, ht1 k, splitCond_congr s s1 t k ht1 hl1 hh1, List.mem_cons]
      constructor
      · rintro ((hk | ⟨rfl, hc⟩) | ⟨hk, hc⟩)
        · exact Or.inl hk
        · exact Or.inr ⟨Or.inl rfl, hc⟩
        · exact Or.inr ⟨Or.inr hk, hc⟩
      · rintro (hk | ⟨rfl | hk, hc⟩)
        · exact Or.inl (Or.inl hk)
        · exact Or.inl (Or.inr ⟨rfl, hc⟩)
        · exact Or.inr ⟨hk, hc⟩
    · intro c hc
      rw [splitBatchCalls, hstep, List.mem_append] at hc
      rcases hc with hc | hc
      · cases hreq : s.splitRequest t with
        | none =>
          rw [hreq] at hc
          simp at hc
        | some a =>
          rw [hreq] at hc
          have hca : c = (s, a) := by simpa using hc
          have := splitCallOk_of_request s t a hg.1 hreq
          rw [hca]
          exact ⟨by rw [this.1]; exact List.mem_cons_self _ _, this.2⟩
      · have := hc2 c hc
        exact ⟨List.mem_cons_of_mem _ this.1, this.2⟩

/-- C6: in a state whose map is a `std::map` and which satisfies the watermark invariant,
the batch form of `split` returns; afterwards the stored times are the old ones plus
exactly the requested `t` with a stored time at or after `t` and a stored time or the
watermark before `t`; the watermark and its flag are unchanged; and every single split it
invokes gets `(previous, t, next)` with `t` requested, `previous < t < next`, `next` the first
stored time not before `t` and `previous` the stored time right before `next`, or the
watermark when `next` is the earliest stored time. -/
theorem splitBatch_spec (s : MeasurementTimeline M) (times : TimeSet)
    (res : BinaryResidualBase M) (hwf : s.measMap.WF) (hinv : WatermarkInv s) :
    ∃ s1, s.splitBatch times res = .ok s1 ∧
      (∀ k, k ∈ s1.times ↔ k ∈ s.times ∨ (k ∈ times ∧ SplitCond s k)) ∧
      s1.lastProcessedTime = s.lastProcessedTime ∧
      s1.hasProcessedTime = s.hasProcessedTime ∧
      ∀ c ∈ s.splitBatchCalls times res, c.2.2.1 ∈ times ∧ SplitCallOk c := by
  obtain ⟨s1, h1, _, h3, h4, h5, h6⟩ := splitBatch_good times res s ⟨hwf, hinv⟩
  exact ⟨s1, h1, h3, h4, h5, h6⟩

/-- Witness of C6: with watermark 10 and samples at 20 and 30, the requests 5, 12, 15, 20,
25, 35 are answered by three single splits. -/
theorem splitBatch_spec_witness :
    (sampleProcessed.measMap.WF ∧ WatermarkInv sampleProcessed) ∧
    ∃ s1, sampleProcessed.splitBatch [5, 12, 15, 20, 25, 35] halving = .ok s1 ∧
      ∀ c ∈ sampleProcessed.splitBatchCalls [5, 12, 15, 20, 25, 35] halving,
        c.2.2.1 ∈ [5, 12, 15, 20, 25, 35] ∧ SplitCallOk c :=
  ⟨by decide,
   (splitBatch_spec sampleProcessed [5, 12, 15, 20, 25, 35] halving (by decide) (by decide)).imp
     (fun _ h => ⟨h.1, h.2.2.2.2⟩)⟩

theorem wf_of_times_eq (s s1 : MeasurementTimeline M) (h : s.measMap.WF)
    (ht : s1.times = s.times) : s1.measMap.WF := by
  show (MeasMap.keys s1.measMap).Pairwise (· < ·)
  have : MeasMap.keys s1.measMap = MeasMap.keys s.measMap := ht
  rw [this]
  exact h

theorem wf_split (s : MeasurementTimeline M) (t0 t1 t2 : TimePoint)
    (res : BinaryResidualBase M) (h : s.measMap.WF) :
    (s.split t0 t1 t2 res).state.measMap.WF :=
  wf_of_times_eq (s.addMeas none t1) _ (addMeas_WF s none t1 h)
    (split_state_frame s t0 t1 t2 res).1

theorem wf_splitBatch (times : TimeSet) (res : BinaryResidualBase M) :
    ∀ s : MeasurementTimeline M, s.measMap.WF → (s.splitBatch times res).state.measMap.WF := by
  induction times with
  | nil => intro s h; exact h
  | cons t ts ih =>
    intro s h
    have hstep : (s.splitStep t res).state.measMap.WF := by
      unfold splitStep
      split
      · exact h
      · exact wf_split s _ _ _ res h
    unfold splitBatch
    cases hs : s.splitStep t res with
    | ok s1 =>
      rw [hs] at hstep
      exact ih s1 hstep
    | error s1 =>
      rw [hs] at hstep
      exact hstep

theorem wf_merge (s : MeasurementTimeline M) (t0 t1 t2 : TimePoint)
    (res : BinaryResidualBase M) (h : s.measMap.WF) :
    (s.merge t0 t1 t2 res).state.measMap.WF := by
  rcases merge_cases s t0 t1 t2 res with ⟨hm, _⟩ | ⟨m1, m2, _, _, hm⟩
  · rw [hm]
    exact h
  · rw [hm]
    exact MeasMap.erase_WF _ _ (MeasMap.assign_WF _ _ _ h)

theorem wf_of_merge_eq {s : MeasurementTimeline M} {t0 t1 t2 : TimePoint}
    {res : BinaryResidualBase M} {o : Outcome M} (hm : s.merge t0 t1 t2 res = o)
    (h : s.measMap.WF) : o.state.measMap.WF := by
  rw [← hm]
  exact wf_merge s t0 t1 t2 res h

theorem wf_mergeUndesiredLoop (times : TimeSet) (hne : times ≠ [])
    (res : BinaryResidualBase M) :
    ∀ (fuel : Nat) (s : MeasurementTimeline M) (it : Nat) (o : Outcome M), s.measMap.WF →
      mergeUndesiredLoop times hne res fuel s it = some o → o.state.measMap.WF := by
  intro fuel
  induction fuel with
  | zero =>
    intro s it o _ h
    simp [mergeUndesiredLoop] at h
  | succ fuel ih =>
    intro s it o hwf h
    rw [mergeUndesiredLoop] at h
    split at h
    · dsimp only at h
      split at h
      · cases h
        exact hwf
      · split at h
        · exact ih s it o hwf h
        · split at h
          · cases h
            exact hwf
          · split at h
            · cases h
              exact hwf
            · split at h
              · rename_i s1 hm
                exact ih s1 _ o (wf_of_merge_eq hm hwf) h
              · rename_i s1 hm
                cases h
                exact wf_of_merge_eq hm hwf
    · cases h
      exact hwf

theorem wf_of_reachable (s : MeasurementTimeline M) (h : Reachable s) : s.measMap.WF := by
  induction h with
  | new a b => exact List.Pairwise.nil
  | addMeas meas t _ ih => exact addMeas_WF _ meas t ih
  | removeProcessedFirst _ hs ih =>
    unfold removeProcessedFirst at hs
    split at hs
    · simp at hs
    · rename_i e rest heq
      rw [heq, MeasMap.WF_cons] at ih
      cases hs
      exact ih.2
  | removeProcessedMeas t _ hs ih =>
    unfold removeProcessedMeas at hs
    split at hs
    · cases hs
      exact MeasMap.erase_WF _ _ ih
    · simp at hs
  | clear _ _ => exact List.Pairwise.nil
  | split t0 t1 t2 res _ ih => exact wf_split _ t0 t1 t2 res ih
  | splitBatch times res _ ih => exact wf_splitBatch times res _ ih
  | merge t0 t1 t2 res _ ih => exact wf_merge _ t0 t1 t2 res ih
  | mergeUndesired fuel times hne res _ hm ih =>
    exact wf_mergeUndesiredLoop times hne res fuel _ 0 _ ih hm

theorem reachable_sampleProcessed : Reachable sampleProcessed :=
  Reachable.removeProcessedFirst reachable_sample (by decide)

theorem splitBatch_single (s : MeasurementTimeline M) (t : TimePoint)
    (res : BinaryResidualBase M) : s.splitBatch [t] res = s.splitStep t res := by
  rw [splitBatch]
  cases s.splitStep t res with
  | ok s1 => rfl
  | error s1 => rfl

theorem splitStep_range_error (s : MeasurementTimeline M) (t : TimePoint)
    (res : BinaryResidualBase M) (hwf : s.measMap.WF)
    (hrange : (s.hasProcessedTime = true ∧ t ≤ s.lastProcessedTime) ∨ ∀ k ∈ s.times, k < t) :
    (s.splitRequest t = none ∧ s.splitStep t res = .ok s) ∨
    (¬ WatermarkInv s ∧ s.splitStep t res = .error s) := by
  cases hreq : s.splitRequest t with
  | none => exact Or.inl ⟨rfl, by simp [splitStep, hreq]⟩
  | some a =>
    right
    obtain ⟨h1, h2, h3, h4, _, h6⟩ := splitRequest_some s t a hwf hreq
    rcases hrange with hr | hr
    · constructor
      · intro hinv
        rcases h6 with h6 | h6
        · exact absurd (lt_trans (hinv hr.1 a.1 h6.1) h6.2.1) (not_lt.2 hr.2)
        · exact absurd h6.2.2.1 (not_lt.2 hr.2)
      · have hstep : s.splitStep t res = s.split a.1 t a.2.2 res := by
          simp [splitStep, hreq, h1]
        rw [hstep]
        exact split_error_of_rejected s a.1 t a.2.2 res hwf (Or.inl hr) (Or.inl h4)
    · exact absurd (hr a.2.2 h2) (not_lt.2 (le_of_lt h3))

/-- Counterexample to C7: the reachable state with samples at 10 and 30 and watermark 20
(`addMeas` at 10, 20, 30, then `removeProcessedMeas(20)`); the request 15 is before the
watermark, and `split({15}, r)` ends in the exception of `at(15)` instead of returning. -/
theorem splitBatch_throws_before_watermark :
    Reachable outOfOrder ∧
    (outOfOrder.hasProcessedTime = true ∧ (15 : Int) ≤ outOfOrder.lastProcessedTime) ∧
    outOfOrder.splitBatch [15] halving = .error outOfOrder :=
  ⟨reachable_outOfOrder, by decide, rfl⟩

/-- C7, amended: for a requested time `t` at or before the watermark or after every stored
time, `split({t}, r)` leaves the timeline as it was and does not depend on the residual,
which is not called; it returns normally, with no single split invoked, whenever the
watermark invariant holds. -/
theorem splitBatch_range_error (s : MeasurementTimeline M) (t : TimePoint)
    (res : BinaryResidualBase M) (hreach : Reachable s)
    (hrange : (s.hasProcessedTime = true ∧ t ≤ s.lastProcessedTime) ∨ ∀ k ∈ s.times, k < t) :
    (s.splitBatch [t] res).state = s ∧
    (∀ res2 : BinaryResidualBase M, s.splitBatch [t] res2 = s.splitBatch [t] res) ∧
    (WatermarkInv s → s.splitBatch [t] res = .ok s ∧ s.splitBatchCalls [t] res = []) := by
  have hwf := wf_of_reachable s hreach
  refine ⟨?_, ?_, ?_⟩
  · rw [splitBatch_single]
    rcases splitStep_range_error s t res hwf hrange with h | h
    · rw [h.2]; rfl
    · rw [h.2]; rfl
  · intro res2
    rw [splitBatch_single, splitBatch_single]
    rcases splitStep_range_error s t res hwf hrange with h | h
    · rcases splitStep_range_error s t res2 hwf hrange with h2 | h2
      · rw [h.2, h2.2]
      · rw [h.2, h2.2]
        simp [splitStep, h.1] at h2
    · rcases splitStep_range_error s t res2 hwf hrange with h2 | h2
      · rw [h.2, h2.2]
        simp [splitStep, h2.1] at h
      · rw [h.2, h2.2]
  · intro hinv
    rcases splitStep_range_error s t res hwf hrange with h | h
    · rw [splitBatch_single]
      refine ⟨h.2, ?_⟩
      simp [splitBatchCalls, h.1, h.2]
    · exact absurd hinv h.1

/-- Witness of the amended C7: with watermark 10 and samples at 20 and 30 the request 5
is skipped. -/
theorem splitBatch_range_error_witness :
    (Reachable sampleProcessed ∧
      (sampleProcessed.hasProcessedTime = true ∧
        (5 : Int) ≤ sampleProcessed.lastProcessedTime) ∧
      WatermarkInv sampleProcessed) ∧
    sampleProcessed.splitBatch [5] halving = .ok sampleProcessed ∧
    sampleProcessed.splitBatchCalls [5] halving = [] :=
  ⟨⟨reachable_sampleProcessed, by decide, by decide⟩,
   (splitBatch_range_error sampleProcessed 5 halving reachable_sampleProcessed
     (Or.inl (by decide))).2.2 (by decide)⟩

/-! ### mergeUndesired -/

theorem merge_head (s : MeasurementTimeline M) (e1 e2 : TimePoint × MeasPtr M)
    (rest : MeasMap M) (hm : s.measMap = e1 :: e2 :: rest) (hwf : s.measMap.WF)
    (t0 : TimePoint) (res : BinaryResidualBase M) :
    s.merge t0 e1.1 e2.1 res = .ok { s with
      measMap := (e2.1, res.mergeMeasurements e1.2 e2.2 t0 e1.1 e2.1) :: rest } := by
  rw [hm, MeasMap.WF_cons] at hwf
  have h12 : e1.1 < e2.1 := hwf.1 e2.1 (by simp [MeasMap.keys])
  have hne : ¬ e1.1 = e2.1 := ne_of_lt h12
  have hnot : e1.1 ∉ MeasMap.keys ((e2.1, res.mergeMeasurements e1.2 e2.2 t0 e1.1 e2.1) :: rest) := by
    intro hk
    rw [MeasMap.keys_cons, List.mem_cons] at hk
    rcases hk with hk | hk
    · exact hne hk
    · exact absurd (hwf.1 e1.1 (by rw [MeasMap.keys_cons]; exact List.mem_cons_of_mem _ hk))
        (lt_irrefl _)
  have h1 : s.measMap.at? e1.1 = some e1.2 := by
    rw [hm, MeasMap.at?_cons, if_pos rfl]
  have h2 : s.measMap.at? e2.1 = some e2.2 := by
    rw [hm, MeasMap.at?_cons, if_neg hne, MeasMap.at?_cons, if_pos rfl]
  unfold merge
  simp only [h1, h2]
  rw [hm, MeasMap.assign_cons, if_neg hne, MeasMap.assign_cons, if_pos rfl, MeasMap.erase_cons,
    if_pos rfl, MeasMap.erase_of_not_mem _ _ hnot]

theorem mergeUndesiredLoop_begin (times : TimeSet) (hne : times ≠ [])
    (res : BinaryResidualBase M) :
    ∀ (fuel : Nat) (s : MeasurementTimeline M), s.measMap.length < fuel → s.measMap.WF →
      s.hasProcessedTime = true → WatermarkInv s → (∀ k ∈ s.times, k ∉ times) →
      ∃ m1 : MeasMap M,
        mergeUndesiredLoop times hne res fuel s 0 = some (.ok { s with measMap := m1 }) ∧
        ((∃ k ∈ s.times, times.getLast hne < k) →
          ∀ k, k ∈ m1.keys ↔ k ∈ s.times ∧ times.getLast hne < k) ∧
        ((∀ k ∈ s.times, k ≤ times.getLast hne) → m1.keys = s.times.getLast?.toList) := by
  intro fuel
  induction fuel with
  | zero => intro s hlen; exact absurd hlen (Nat.not_lt_zero _)
  | succ fuel ih =>
    intro s hlen hwf hhas hinv hnone
    obtain ⟨m, maxW, minW, last, has⟩ := s
    simp only at hhas
    subst hhas
    cases m with
    | nil =>
      refine ⟨[], ?_, ?_, ?_⟩
      · simp [mergeUndesiredLoop]
      · rintro ⟨k, hk, _⟩
        simp [MeasurementTimeline.times, MeasMap.keys] at hk
      · intro _
        rfl
    | cons e1 rest =>
      have hwf2 : (∀ k ∈ MeasMap.keys rest, e1.1 < k) ∧ MeasMap.WF rest :=
        (MeasMap.WF_cons e1 rest).1 hwf
      have hinv2 : ∀ k ∈ MeasMap.keys (e1 :: rest), last < k := hinv rfl
      have hnone2 : ∀ k ∈ MeasMap.keys (e1 :: rest), k ∉ times := hnone
      rw [mergeUndesiredLoop]
      dsimp only
      rw [dif_pos (List.length_pos.2 (List.cons_ne_nil e1 rest))]
      dsimp only [List.get]
      have hmem1 : e1.1 ∈ MeasMap.keys (e1 :: rest) := List.mem_cons_self _ _
      by_cases hgt : e1.1 > times.getLast hne
      · refine ⟨e1 :: rest, by rw [if_pos hgt], ?_, ?_⟩
        · intro _ k
          constructor
          · intro hk
            refine ⟨hk, ?_⟩
            have hk2 : k ∈ MeasMap.keys (e1 :: rest) := hk
            rw [MeasMap.keys_cons, List.mem_cons] at hk2
            rcases hk2 with rfl | hk2
            · exact hgt
            · exact lt_trans hgt (hwf2.1 k hk2)
          · exact fun h => h.1
        · intro hall
          exact absurd (hall e1.1 hmem1) (not_le.2 hgt)
      · rw [if_neg hgt]
        have hcount : ¬ List.count e1.1 times > 0 :=
          fun h => hnone2 e1.1 hmem1 (List.count_pos_iff.1 h)
        rw [if_neg hcount]
        have hguard : ¬ (0 = 0 ∧ (true = false ∨ last > e1.1)) := by
          rintro ⟨_, h | h⟩
          · exact absurd h (by simp)
          · exact absurd (hinv2 e1.1 hmem1) (not_lt.2 (le_of_lt h))
        rw [if_neg hguard]
        cases rest with
        | nil =>
          rw [dif_pos (show 0 + 1 = [e1].length from rfl)]
          refine ⟨[e1], rfl, ?_, ?_⟩
          · rintro ⟨k, hk, hlt⟩
            have hk2 : k ∈ MeasMap.keys [e1] := hk
            rw [MeasMap.keys_cons, List.mem_cons] at hk2
            rcases hk2 with rfl | hk2
            · exact absurd hlt hgt
            · simp [MeasMap.keys] at hk2
          · intro _
            rfl
        | cons e2 rest2 =>
          rw [dif_neg (show ¬ 0 + 1 = (e1 :: e2 :: rest2).length by simp)]
          dsimp only [List.get]
          rw [if_pos rfl, merge_head _ e1 e2 rest2 rfl hwf last res]
          dsimp only
          have hpos : MeasMap.position
              ((e2.1, res.mergeMeasurements e1.2 e2.2 last e1.1 e2.1) :: rest2) e2.1 = 0 := by
            simp [MeasMap.position, List.findIdx_cons]
          rw [hpos]
          have hwf3 : MeasMap.WF
              ((e2.1, res.mergeMeasurements e1.2 e2.2 last e1.1 e2.1) :: rest2) := hwf2.2
          have hsub : ∀ k ∈ MeasMap.keys
              ((e2.1, res.mergeMeasurements e1.2 e2.2 last e1.1 e2.1) :: rest2),
              k ∈ MeasMap.keys (e1 :: e2 :: rest2) := by
            intro k hk
            exact List.mem_cons_of_mem _ hk
          obtain ⟨m1, hloop, hc1, hc2⟩ := ih
            ⟨(e2.1, res.mergeMeasurements e1.2 e2.2 last e1.1 e2.1) :: rest2, maxW, minW, last, true⟩
            (by simpa using hlen) hwf3 rfl (fun _ k hk => hinv2 k (hsub k hk))
            (fun k hk => hnone2 k (hsub k hk))
          refine ⟨m1, hloop, ?_, ?_⟩
          · rintro ⟨k, hk, hlt⟩
            have hk2 : k ∈ MeasMap.keys (e1 :: e2 :: rest2) := hk
            rw [MeasMap.keys_cons, List.mem_cons] at hk2
            have hk3 : k ∈ MeasMap.keys (e2 :: rest2) := by
              rcases hk2 with rfl | hk2
              · exact absurd hlt hgt
              · exact hk2
            intro k2
            rw [hc1 ⟨k, hk3, hlt⟩ k2]
            constructor
            · rintro ⟨h1, h2⟩
              exact ⟨hsub k2 h1, h2⟩
            · rintro ⟨h1, h2⟩
              have h3 : k2 ∈ MeasMap.keys (e1 :: e2 :: rest2) := h1
              rw [MeasMap.keys_cons, List.mem_cons] at h3
              rcases h3 with rfl | h3
              · exact absurd h2 hgt
              · exact ⟨h3, h2⟩
          · intro hall
            rw [hc2 (fun k hk => hall k (hsub k hk))]
            show (MeasMap.keys (e2 :: rest2)).getLast?.toList =
              (MeasMap.keys (e1 :: e2 :: rest2)).getLast?.toList
            rw [MeasMap.keys_cons, MeasMap.keys_cons, MeasMap.keys_cons, List.getLast?_cons_cons]

theorem le_getLast_of_WF (times : TimeSet) (hne : times ≠ []) (hwf : TimeSet.WF times) :
    ∀ u ∈ times, u ≤ times.getLast hne := by
  induction times with
  | nil => exact absurd rfl hne
  | cons a rest ih =>
    unfold TimeSet.WF at hwf ih
    rw [List.pairwise_cons] at hwf
    intro u hu
    cases rest with
    | nil =>
      have : u = a := by simpa using hu
      rw [this]
      exact le_refl _
    | cons b rest2 =>
      rw [List.getLast_cons (List.cons_ne_nil b rest2)]
      rcases List.mem_cons.1 hu with rfl | hu
      · exact le_of_lt (hwf.1 _ (List.getLast_mem _))
      · exact ih (List.cons_ne_nil b rest2) hwf.2 u hu

/-- Counterexample to C9: with watermark 10, samples at 20 and 30 and `times = {40}`,
`mergeUndesired` merges 20 into 30, meets the range error at the last sample and returns
with the time 30 still stored, which is neither in `times` nor after 40. -/
theorem mergeUndesired_keeps_unwanted_last :
    (sampleProcessed.hasProcessedTime = true ∧ WatermarkInv sampleProcessed) ∧
    sampleProcessed.mergeUndesired 3 [40] (List.cons_ne_nil 40 []) halving =
      some (.ok { sampleProcessed with measMap := [(30, some 5)] }) ∧
    (30 : Int) ∉ [(40 : Int)] ∧ ¬ ((40 : Int) < 30) :=
  ⟨by decide, rfl, by decide, by decide⟩

/-- C9, amended: in a watermarked state that satisfies the watermark invariant, for a
non-empty set `times` none of whose members is a stored time, `mergeUndesired(times, r)`
returns, within one more evaluation of the loop condition than there are stored times,
and keeps watermark and flag. If some stored time is after the greatest member of
`times`, the stored times are afterwards exactly the old ones after that member;
otherwise the range error leaves exactly the greatest old stored time. -/
theorem mergeUndesired_spec (s : MeasurementTimeline M) (times : TimeSet) (hne : times ≠ [])
    (res : BinaryResidualBase M) (fuel : Nat) (hwf : s.measMap.WF) (htimes : TimeSet.WF times)
    (hhas : s.hasProcessedTime = true) (hinv : WatermarkInv s)
    (hnone : ∀ k ∈ s.times, k ∉ times) (hfuel : s.measMap.length < fuel) :
    (∀ u ∈ times, u ≤ times.getLast hne) ∧
    ∃ s1, s.mergeUndesired fuel times hne res = some (.ok s1) ∧
      s1.lastProcessedTime = s.lastProcessedTime ∧
      s1.hasProcessedTime = s.hasProcessedTime ∧
      ((∃ k ∈ s.times, times.getLast hne < k) →
        ∀ k, k ∈ s1.times ↔ k ∈ s.times ∧ times.getLast hne < k) ∧
      ((∀ k ∈ s.times, k ≤ times.getLast hne) → s1.times = s.times.getLast?.toList) := by
  refine ⟨le_getLast_of_WF times hne htimes, ?_⟩
  obtain ⟨m1, h1, h2, h3⟩ := mergeUndesiredLoop_begin times hne res fuel s hfuel hwf hhas hinv hnone
  exact ⟨{ s with measMap := m1 }, h1, rfl, rfl, h2, h3⟩

/-- Witness of the amended C9: with watermark 10, samples at 20 and 30 and `times = {25}`,
the sample at 20 is merged away and 30 stays. -/
theorem mergeUndesired_spec_witness :
    (sampleProcessed.measMap.WF ∧ TimeSet.WF [25] ∧ sampleProcessed.hasProcessedTime = true ∧
      WatermarkInv sampleProcessed ∧ (∀ k ∈ sampleProcessed.times, k ∉ [(25 : Int)]) ∧
      sampleProcessed.measMap.length < 3) ∧
    ∃ s1, sampleProcessed.mergeUndesired 3 [25] (List.cons_ne_nil 25 []) halving = some (.ok s1) ∧
      s1.lastProcessedTime = sampleProcessed.lastProcessedTime :=
  ⟨by decide,
   (mergeUndesired_spec sampleProcessed [25] (List.cons_ne_nil 25 []) halving 3 (by decide)
     (by decide) (by decide) (by decide) (by decide) (by decide)).2.imp
     (fun _ h => ⟨h.1, h.2.1⟩)⟩

/-! ### Single split, postcondition -/

/-- C11: for `t0 < t1 < t2` with `t2` stored, `t1` not stored and after any watermark,
`split(t0, t1, t2, r)` returns; the stored times are then the old ones and `t1`, the
measurements at `t1` and `t2` are the first and second output of `r.splitMeasurements` on
the old measurement at `t2`, every other entry is as before, and so are the watermark, its
flag and the wait times. -/
theorem split_spec (s : MeasurementTimeline M) (t0 t1 t2 : TimePoint)
    (res : BinaryResidualBase M) (m : MeasPtr M) (_h01 : t0 < t1) (h12 : t1 < t2)
    (hm : s.measMap.at? t2 = some m) (h1 : t1 ∉ s.times)
    (hw : s.hasProcessedTime = true → s.lastProcessedTime < t1) :
    ∃ s1, s.split t0 t1 t2 res = .ok s1 ∧
      (∀ k, k ∈ s1.times ↔ k = t1 ∨ k ∈ s.times) ∧
      s1.times.Perm (t1 :: s.times) ∧
      s1.measMap.at? t1 = some (res.splitMeasurements m t0 t1 t2).1 ∧
      s1.measMap.at? t2 = some (res.splitMeasurements m t0 t1 t2).2 ∧
      (∀ k, k ≠ t1 → k ≠ t2 → s1.measMap.at? k = s.measMap.at? k) ∧
      s1.lastProcessedTime = s.lastProcessedTime ∧
      s1.hasProcessedTime = s.hasProcessedTime ∧
      s1.maxWaitTime = s.maxWaitTime ∧ s1.minWaitTime = s.minWaitTime := by
  have hne : t1 ≠ t2 := ne_of_lt h12
  have h21 : ¬ t2 = t1 := fun h => hne h.symm
  have hk1 : t1 ∉ MeasMap.keys s.measMap := h1
  have hins1 : MeasMap.at? (s.measMap.insert t1 none).1 t1 = some none := by
    rw [MeasMap.at?_insert _ _ _ hk1, if_pos rfl]
  have hins2 : MeasMap.at? (s.measMap.insert t1 none).1 t2 = some m := by
    rw [MeasMap.at?_insert _ _ _ hk1, if_neg h21, hm]
  refine ⟨_, split_ok s t0 t1 t2 res m hne hm h1 hw, ?_, ?_, ?_, ?_, ?_, rfl, rfl, rfl, rfl⟩
  · intro k
    show k ∈ MeasMap.keys (MeasMap.assign (MeasMap.assign _ _ _) _ _) ↔ _
    rw [MeasMap.keys_assign, MeasMap.keys_assign, MeasMap.mem_keys_insert]
    rfl
  · show (MeasMap.keys (MeasMap.assign (MeasMap.assign _ _ _) _ _)).Perm _
    rw [MeasMap.keys_assign, MeasMap.keys_assign]
    exact MeasMap.keys_insert_perm _ _ _ hk1
  · show MeasMap.at? (MeasMap.assign (MeasMap.assign _ _ _) _ _) _ = _
    rw [MeasMap.at?_assign, if_neg hne, MeasMap.at?_assign, if_pos rfl, hins1]
    rfl
  · show MeasMap.at? (MeasMap.assign (MeasMap.assign _ _ _) _ _) _ = _
    rw [MeasMap.at?_assign, if_pos rfl, MeasMap.at?_assign, if_neg h21, hins2]
    rfl
  · intro k hk1 hk2
    show MeasMap.at? (MeasMap.assign (MeasMap.assign _ _ _) _ _) _ = _
    rw [MeasMap.at?_assign, if_neg hk2, MeasMap.at?_assign, if_neg hk1,
      MeasMap.at?_insert _ _ _ h1, if_neg hk1]

/-- Witness of C11: on the timeline with samples at 10, 20, 30 the sample at 20 is split
at the time 15 by the halving residual. -/
theorem split_spec_witness :
    (((10 : Int) < 15 ∧ (15 : Int) < 20) ∧ sample.measMap.at? 20 = some (some 2) ∧
      (15 : Int) ∉ sample.times) ∧
    ∃ s1, sample.split 10 15 20 halving = .ok s1 ∧
      s1.measMap.at? 15 = some (halving.splitMeasurements (some 2) 10 15 20).1 ∧
      s1.measMap.at? 20 = some (halving.splitMeasurements (some 2) 10 15 20).2 :=
  ⟨by decide,
   (split_spec sample 10 15 20 halving (some 2) (by decide) (by decide) (by decide)
     (by decide) (by decide)).imp (fun _ h => ⟨h.1, h.2.2.2.1, h.2.2.2.2.1⟩)⟩

/-! ### Processing and the last time -/

/-- C14: on a non-empty map `removeProcessedFirst()` returns; the watermark becomes the
earliest stored time, the flag becomes true, exactly the entry at that time is removed and
all other entries and the wait times stay; `removeProcessedMeas` of the earliest stored time
gives the same timeline. -/
theorem removeProcessedFirst_spec (s : MeasurementTimeline M) (hwf : s.measMap.WF)
    (hne : s.measMap ≠ []) :
    ∃ e s1, s.measMap.head? = some e ∧ (∀ k ∈ s.times, e.1 ≤ k) ∧
      s.removeProcessedFirst = some s1 ∧
      s1.lastProcessedTime = e.1 ∧ s1.hasProcessedTime = true ∧
      (∀ k, k ∈ s1.times ↔ k ∈ s.times ∧ k ≠ e.1) ∧
      s1.measMap.at? e.1 = none ∧
      (∀ k, k ≠ e.1 → s1.measMap.at? k = s.measMap.at? k) ∧
      s1.maxWaitTime = s.maxWaitTime ∧ s1.minWaitTime = s.minWaitTime ∧
      s.removeProcessedMeas e.1 = some s1 := by
  obtain ⟨m, maxW, minW, last, has⟩ := s
  cases m with
  | nil => exact absurd rfl hne
  | cons e rest =>
    have hwf2 : (∀ k ∈ MeasMap.keys rest, e.1 < k) ∧ MeasMap.WF rest :=
      (MeasMap.WF_cons e rest).1 hwf
    have hnot : e.1 ∉ MeasMap.keys rest := fun h => lt_irrefl _ (hwf2.1 e.1 h)
    have herase : MeasMap.erase (e :: rest) e.1 = rest := by
      rw [MeasMap.erase_cons, if_pos rfl, MeasMap.erase_of_not_mem _ _ hnot]
    refine ⟨e, ⟨rest, maxW, minW, e.1, true⟩, rfl, ?_, rfl, rfl, rfl, ?_, ?_, ?_, rfl, rfl, ?_⟩
    · intro k hk
      have hk2 : k ∈ MeasMap.keys (e :: rest) := hk
      rw [MeasMap.keys_cons, List.mem_cons] at hk2
      rcases hk2 with rfl | hk2
      · exact le_refl _
      · exact le_of_lt (hwf2.1 k hk2)
    · intro k
      show k ∈ MeasMap.keys rest ↔ k ∈ MeasMap.keys (e :: rest) ∧ k ≠ e.1
      rw [MeasMap.keys_cons, List.mem_cons]
      constructor
      · intro hk
        exact ⟨Or.inr hk, fun h => hnot (h ▸ hk)⟩
      · rintro ⟨hk | hk, hne2⟩
        · exact absurd hk hne2
        · exact hk
    · exact (MeasMap.at?_eq_none_iff rest e.1).2 hnot
    · intro k hk
      show MeasMap.at? rest k = MeasMap.at? (e :: rest) k
      rw [MeasMap.at?_cons, if_neg (fun h => hk h.symm)]
    · have hcount : MeasMap.count (e :: rest) e.1 > 0 := by
        unfold MeasMap.count
        rw [MeasMap.keys_cons]
        exact List.count_pos_iff.2 (List.mem_cons_self _ _)
      unfold removeProcessedMeas
      rw [if_pos hcount]
      show some (MeasurementTimeline.mk (MeasMap.erase (e :: rest) e.1) maxW minW e.1 true) = _
      rw [herase]

/-- Witness of C14: with nanosecond ticks and samples at 1.0 s, 2.0 s, 3.0 s,
`removeProcessedFirst()` makes the watermark 1.0 s and leaves the times 2.0 s and 3.0 s. -/
theorem removeProcessedFirst_spec_witness :
    ((scenario 500000000 (some 1) (some 2) (some 3) : MeasurementTimeline Nat).measMap.WF ∧
      (scenario 500000000 (some 1) (some 2) (some 3) : MeasurementTimeline Nat).measMap ≠ []) ∧
    (∃ e s1, (scenario 500000000 (some 1) (some 2) (some 3) :
        MeasurementTimeline Nat).measMap.head? = some e ∧
      (scenario 500000000 (some 1) (some 2) (some 3) :
        MeasurementTimeline Nat).removeProcessedFirst = some s1 ∧
      s1.lastProcessedTime = e.1) ∧
    ((scenario 500000000 (some 1) (some 2) (some 3) :
        MeasurementTimeline Nat).removeProcessedFirst.map
      (fun s1 => (s1.hasProcessedTime, s1.lastProcessedTime, s1.times))) =
      some (true, 1000000000, [2000000000, 3000000000]) :=
  ⟨by decide,
   (removeProcessedFirst_spec (scenario 500000000 (some 1) (some 2) (some 3))
     (by decide) (by decide)).imp
     (fun _ h => h.imp (fun _ h2 => ⟨h2.1, h2.2.2.1, h2.2.2.2.1⟩)),
   by decide⟩

/-- C16: `getLastTime` succeeds with the greatest stored time when the map is not empty,
succeeds with `lastProcessedTime` when the map is empty and a watermark exists, and reports
absence exactly when the map is empty and no watermark exists, as after `clear()`. -/
theorem getLastTime_spec (s : MeasurementTimeline M) (hwf : s.measMap.WF) :
    (∀ e, s.measMap.getLast? = some e →
      s.getLastTime = some e.1 ∧ e.1 ∈ s.times ∧ ∀ k ∈ s.times, k ≤ e.1) ∧
    (s.measMap ≠ [] → ∃ e, s.measMap.getLast? = some e) ∧
    (s.measMap = [] → s.hasProcessedTime = true → s.getLastTime = some s.lastProcessedTime) ∧
    (s.getLastTime = none ↔ s.measMap = [] ∧ s.hasProcessedTime = false) ∧
    s.clear.getLastTime = none := by
  refine ⟨?_, ?_, ?_, ?_, ?_⟩
  · intro e he
    refine ⟨by simp [getLastTime, he], ?_, MeasMap.getLast?_max s.measMap hwf e he⟩
    exact List.mem_map_of_mem _ (List.mem_of_getLast?_eq_some he)
  · intro hne
    cases hl : s.measMap.getLast? with
    | none => exact absurd (List.getLast?_eq_none_iff.1 hl) hne
    | some e => exact ⟨e, rfl⟩
  · intro hm hh
    simp [getLastTime, hm, hh]
  · unfold getLastTime
    cases hl : s.measMap.getLast? with
    | none =>
      have hm := List.getLast?_eq_none_iff.1 hl
      cases hh : s.hasProcessedTime <;> simp [hm]
    | some e =>
      have hm : s.measMap ≠ [] := fun h => by rw [h] at hl; simp at hl
      simp [hm]
  · simp [getLastTime, clear]

/-- Witness of C16 on the timeline with samples at 10, 20, 30. -/
theorem getLastTime_spec_witness :
    sample.measMap.WF ∧ sample.getLastTime = some 30 ∧ sample.clear.getLastTime = none :=
  ⟨by decide,
   ((getLastTime_spec sample (by decide)).1 (30, some 3) (by decide)).1,
   (getLastTime_spec sample (by decide)).2.2.2.2⟩

end MeasurementTimeline

/-! ## Range queries -/

theorem TimeSet.mem_insert (times : TimeSet) (t k : TimePoint) :
    k ∈ TimeSet.insert times t ↔ k = t ∨ k ∈ times := by
  induction times with
  | nil => simp [TimeSet.insert]
  | cons a rest ih =>
    rw [TimeSet.insert]
    by_cases h1 : t < a
    · rw [if_pos h1]
      simp
    · rw [if_neg h1]
      by_cases h2 : t = a
      · rw [if_pos h2, h2, List.mem_cons]
        tauto
      · rw [if_neg h2, List.mem_cons, List.mem_cons, ih]
        tauto

theorem TimeSet.insert_sorted (times : TimeSet) (t : TimePoint) (hwf : TimeSet.WF times) :
    TimeSet.WF (TimeSet.insert times t) := by
  induction times with
  | nil => simp [TimeSet.insert, TimeSet.WF]
  | cons a rest ih =>
    unfold TimeSet.WF at hwf ih ⊢
    have hwf2 := List.pairwise_cons.1 hwf
    rw [TimeSet.insert]
    by_cases h1 : t < a
    · rw [if_pos h1]
      refine List.pairwise_cons.2 ⟨?_, hwf⟩
      intro b hb
      rcases List.mem_cons.1 hb with rfl | hb
      · exact h1
      · exact lt_trans h1 (hwf2.1 b hb)
    · rw [if_neg h1]
      by_cases h2 : t = a
      · rw [if_pos h2]
        exact hwf
      · rw [if_neg h2]
        refine List.pairwise_cons.2 ⟨?_, ih hwf2.2⟩
        intro b hb
        rcases (TimeSet.mem_insert rest t b).1 hb with rfl | hb
        · exact lt_of_le_of_ne (not_lt.1 h1) (fun h => h2 h.symm)
        · exact hwf2.1 b hb

namespace MeasMap

variable {M : Type}

theorem upperBound_cons (e : TimePoint × MeasPtr M) (rest : MeasMap M) (t : TimePoint) :
    upperBound (e :: rest) t = if t < e.1 then 0 else upperBound rest t + 1 := by
  unfold upperBound
  rw [List.findIdx_cons]
  by_cases h : t < e.1
  · simp [h]
  · simp [h]

theorem drop_upperBound (m : MeasMap M) (t : TimePoint) (hwf : m.WF) :
    WF (m.drop (upperBound m t)) ∧
    ∀ k, k ∈ keys (m.drop (upperBound m t)) ↔ k ∈ keys m ∧ t < k := by
  induction m with
  | nil => exact ⟨hwf, fun k => by simp [keys]⟩
  | cons e rest ih =>
    have hwf2 := (WF_cons e rest).1 hwf
    rw [upperBound_cons]
    by_cases h : t < e.1
    · rw [if_pos h, List.drop_zero]
      refine ⟨hwf, fun k => ⟨fun hk => ⟨hk, ?_⟩, fun hk => hk.1⟩⟩
      rw [keys_cons, List.mem_cons] at hk
      rcases hk with rfl | hk
      · exact h
      · exact lt_trans h (hwf2.1 k hk)
    · rw [if_neg h, List.drop_succ_cons]
      refine ⟨(ih hwf2.2).1, fun k => ?_⟩
      rw [(ih hwf2.2).2 k, keys_cons, List.mem_cons]
      constructor
      · rintro ⟨h1, h2⟩
        exact ⟨Or.inr h1, h2⟩
      · rintro ⟨h1 | h1, h2⟩
        · exact absurd (h1 ▸ h2) h
        · exact ⟨h1, h2⟩

theorem le_of_lt_upperBound (m : MeasMap M) (t : TimePoint) (j : Nat) (hj : j < m.length)
    (h : j < upperBound m t) : (m.get ⟨j, hj⟩).1 ≤ t := by
  have := List.not_of_lt_findIdx h
  simpa using this

theorem lt_get_upperBound (m : MeasMap M) (t : TimePoint) (h : upperBound m t < m.length) :
    t < (m.get ⟨upperBound m t, h⟩).1 := by
  have h2 : m.findIdx (fun e => decide (t < e.1)) < m.length := h
  have := List.findIdx_getElem (w := h2)
  simpa using this

theorem lt_upperBound_of_le (m : MeasMap M) (hwf : m.WF) (t : TimePoint) (j : Nat)
    (hj : j < m.length) (h : (m.get ⟨j, hj⟩).1 ≤ t) : j < upperBound m t := by
  by_contra hcon
  have hle : upperBound m t ≤ j := Nat.le_of_not_lt hcon
  have hub : upperBound m t < m.length := Nat.lt_of_le_of_lt hle hj
  have h1 := lt_get_upperBound m t hub
  have h2 := get_le_get m hwf _ j hub hj hle
  exact absurd (lt_of_lt_of_le h1 h2) (not_lt.2 h)

end MeasMap

namespace MeasurementTimeline

variable {M : Type}

theorem mem_addAllInRangeLoop (endTime : TimePoint) :
    ∀ (nodes : MeasMap M) (times : TimeSet), MeasMap.WF nodes →
      ∀ k, k ∈ addAllInRangeLoop endTime nodes times ↔
        k ∈ times ∨ (k ∈ MeasMap.keys nodes ∧ k ≤ endTime) := by
  intro nodes
  induction nodes with
  | nil =>
    intro times _ k
    simp [addAllInRangeLoop, MeasMap.keys]
  | cons e rest ih =>
    intro times hwf k
    have hwf2 := (MeasMap.WF_cons e rest).1 hwf
    rw [addAllInRangeLoop, MeasMap.keys_cons, List.mem_cons]
    by_cases h : e.1 ≤ endTime
    · rw [if_pos h, ih _ hwf2.2 k, TimeSet.mem_insert]
      constructor
      · rintro ((h1 | h1) | h1)
        · exact Or.inr ⟨Or.inl h1, h1 ▸ h⟩
        · exact Or.inl h1
        · exact Or.inr ⟨Or.inr h1.1, h1.2⟩
      · rintro (h1 | ⟨h1 | h1, h2⟩)
        · exact Or.inl (Or.inr h1)
        · exact Or.inl (Or.inl h1)
        · exact Or.inr ⟨h1, h2⟩
    · rw [if_neg h]
      constructor
      · exact fun h1 => Or.inl h1
      · rintro (h1 | ⟨h1 | h1, h2⟩)
        · exact h1
        · exact absurd (h1 ▸ h2) h
        · exact absurd (le_trans (le_of_lt (hwf2.1 k h1)) h2) h

theorem addAllInRangeLoop_WF (endTime : TimePoint) :
    ∀ (nodes : MeasMap M) (times : TimeSet), TimeSet.WF times →
      TimeSet.WF (addAllInRangeLoop endTime nodes times) := by
  intro nodes
  induction nodes with
  | nil => intro times h; exact h
  | cons e rest ih =>
    intro times h
    rw [addAllInRangeLoop]
    by_cases h2 : e.1 ≤ endTime
    · rw [if_pos h2]
      exact ih _ (TimeSet.insert_sorted times e.1 h)
    · rw [if_neg h2]
      exact h

theorem addAllInRangeLoop_of_lt (endTime : TimePoint) (nodes : MeasMap M) (times : TimeSet)
    (h : ∀ k ∈ MeasMap.keys nodes, endTime < k) :
    addAllInRangeLoop endTime nodes times = times := by
  cases nodes with
  | nil => rfl
  | cons e rest =>
    rw [addAllInRangeLoop, if_neg (not_le.2 (h e.1 (List.mem_cons_self _ _)))]

theorem mem_addAllInRange (s : MeasurementTimeline M) (times : TimeSet)
    (start endTime : TimePoint) (hwf : s.measMap.WF) (k : TimePoint) :
    k ∈ (s.addAllInRange times start endTime).2 ↔
      k ∈ times ∨ (k ∈ s.times ∧ start < k ∧ k ≤ endTime) := by
  have hd := MeasMap.drop_upperBound s.measMap start hwf
  show k ∈ addAllInRangeLoop endTime _ times ↔ _
  rw [mem_addAllInRangeLoop endTime _ times hd.1 k, hd.2 k]
  unfold MeasurementTimeline.times
  tauto

/-- C12: `addAllInRange(times, start, end)` makes `times` the old set united with exactly
the stored times `t` with `start < t <= end`; the set stays a set; nothing is added when
`start >= end`; the timeline is left as it is. -/
theorem addAllInRange_spec (s : MeasurementTimeline M) (times : TimeSet)
    (start endTime : TimePoint) (hwf : s.measMap.WF) :
    (∀ k, k ∈ (s.addAllInRange times start endTime).2 ↔
      k ∈ times ∨ (k ∈ s.times ∧ start < k ∧ k ≤ endTime)) ∧
    (TimeSet.WF times → TimeSet.WF (s.addAllInRange times start endTime).2) ∧
    (endTime ≤ start → (s.addAllInRange times start endTime).2 = times) ∧
    (s.addAllInRange times start endTime).1 = s := by
  refine ⟨mem_addAllInRange s times start endTime hwf, ?_, ?_, rfl⟩
  · exact addAllInRangeLoop_WF endTime _ times
  · intro hle
    have hd := MeasMap.drop_upperBound s.measMap start hwf
    exact addAllInRangeLoop_of_lt endTime _ times
      (fun k hk => lt_of_le_of_lt hle ((hd.2 k).1 hk).2)

/-- Witness of C12 on the timeline with samples at 10, 20, 30: the range from 10 to 30
adds 20 and 30 to the set holding 5. -/
theorem addAllInRange_spec_witness :
    sample.measMap.WF ∧
    ((20 : Int) ∈ (sample.addAllInRange [5] 10 30).2 ∧
      (sample.addAllInRange [5] 30 10).2 = [5]) :=
  ⟨by decide,
   ((addAllInRange_spec sample [5] 10 30 (by decide)).1 20).2 (Or.inr (by decide)),
   (addAllInRange_spec sample [5] 30 10 (by decide)).2.2.1 (by decide)⟩

theorem addLastInRange_fst (s : MeasurementTimeline M) (times : TimeSet)
    (start endTime : TimePoint) : (s.addLastInRange times start endTime).1 = s := by
  unfold addLastInRange
  dsimp only
  split
  · rfl
  · split <;> rfl

theorem addLastInRange_cases (s : MeasurementTimeline M) (times : TimeSet)
    (start endTime : TimePoint) (hwf : s.measMap.WF) :
    ((s.addLastInRange times start endTime).2 = times ∧
      ∀ k ∈ s.times, ¬ (start < k ∧ k ≤ endTime)) ∨
    (∃ g ∈ s.times, start < g ∧ g ≤ endTime ∧ (∀ k ∈ s.times, k ≤ endTime → k ≤ g) ∧
      (s.addLastInRange times start endTime).2 = TimeSet.insert times g) := by
  by_cases h : s.measMap.upperBound endTime = 0
  · left
    constructor
    · unfold addLastInRange
      dsimp only
      rw [dif_pos h]
    · rintro k hk ⟨_, hle⟩
      obtain ⟨j, hj, rfl⟩ := (MeasMap.mem_keys_iff_get s.measMap k).1 hk
      have := MeasMap.lt_upperBound_of_le s.measMap hwf endTime j hj hle
      omega
  · have hlen : s.measMap.upperBound endTime - 1 < s.measMap.length :=
      Nat.lt_of_lt_of_le (Nat.sub_lt (Nat.pos_of_ne_zero h) Nat.one_pos)
        (List.findIdx_le_length _)
    have hle : (s.measMap.get ⟨s.measMap.upperBound endTime - 1, hlen⟩).1 ≤ endTime :=
      MeasMap.le_of_lt_upperBound s.measMap endTime _ hlen (by omega)
    have hmax : ∀ k ∈ s.times, k ≤ endTime →
        k ≤ (s.measMap.get ⟨s.measMap.upperBound endTime - 1, hlen⟩).1 := by
      intro k hk hk2
      obtain ⟨j, hj, rfl⟩ := (MeasMap.mem_keys_iff_get s.measMap k).1 hk
      have := MeasMap.lt_upperBound_of_le s.measMap hwf endTime j hj hk2
      exact MeasMap.get_le_get s.measMap hwf j _ hj hlen (by omega)
    by_cases hgt : (s.measMap.get ⟨s.measMap.upperBound endTime - 1, hlen⟩).1 > start
    · right
      refine ⟨_, MeasMap.get_mem_keys s.measMap _ hlen, hgt, hle, hmax, ?_⟩
      unfold addLastInRange
      dsimp only
      rw [dif_neg h, if_pos hgt]
    · left
      constructor
      · unfold addLastInRange
        dsimp only
        rw [dif_neg h, if_neg hgt]
      · rintro k hk ⟨h1, h2⟩
        exact hgt (lt_of_lt_of_le h1 (hmax k hk h2))

/-- C13: `addLastInRange(times, start, end)` adds the greatest stored time `g` with
`start < g <= end` when there is one: `g` is in the set afterwards, and a time is in the
set afterwards exactly when it is `g` or was in `times`. It leaves `times` as it is
otherwise. It adds at most one time, removes none, keeps the set a set, a time it adds is
among those that `addAllInRange` adds for the same arguments, and the timeline is left as
it is. -/
theorem addLastInRange_spec (s : MeasurementTimeline M) (times : TimeSet)
    (start endTime : TimePoint) (hwf : s.measMap.WF) :
    ((∃ k ∈ s.times, start < k ∧ k ≤ endTime) →
      ∃ g ∈ s.times, start < g ∧ g ≤ endTime ∧
        (∀ k ∈ s.times, start < k → k ≤ endTime → k ≤ g) ∧
        (s.addLastInRange times start endTime).2 = TimeSet.insert times g ∧
        g ∈ (s.addLastInRange times start endTime).2 ∧
        (∀ k, k ∈ (s.addLastInRange times start endTime).2 ↔ k = g ∨ k ∈ times)) ∧
    ((∀ k ∈ s.times, ¬ (start < k ∧ k ≤ endTime)) →
      (s.addLastInRange times start endTime).2 = times) ∧
    (∀ a b, a ∈ (s.addLastInRange times start endTime).2 → a ∉ times →
      b ∈ (s.addLastInRange times start endTime).2 → b ∉ times → a = b) ∧
    (∀ k, k ∈ (s.addLastInRange times start endTime).2 →
      k ∈ (s.addAllInRange times start endTime).2) ∧
    (∀ k, k ∈ times → k ∈ (s.addLastInRange times start endTime).2) ∧
    (TimeSet.WF times → TimeSet.WF (s.addLastInRange times start endTime).2) ∧
    (s.addLastInRange times start endTime).1 = s := by
  have hc := addLastInRange_cases s times start endTime hwf
  refine ⟨?_, ?_, ?_, ?_, ?_, ?_, addLastInRange_fst s times start endTime⟩
  · rintro ⟨k, hk, hk2⟩
    rcases hc with ⟨_, hnone⟩ | ⟨g, hg, h1, h2, h3, h4⟩
    · exact absurd hk2 (hnone k hk)
    · refine ⟨g, hg, h1, h2, fun k hk _ hle => h3 k hk hle, h4, ?_, ?_⟩
      · rw [h4, TimeSet.mem_insert]
        exact Or.inl rfl
      · intro k2
        rw [h4, TimeSet.mem_insert]
  · intro hnone
    rcases hc with ⟨h, _⟩ | ⟨g, hg, h1, h2, _, _⟩
    · exact h
    · exact absurd ⟨h1, h2⟩ (hnone g hg)
  · intro a b ha hna hb hnb
    rcases hc with ⟨h, _⟩ | ⟨g, _, _, _, _, h4⟩
    · rw [h] at ha
      exact absurd ha hna
    · rw [h4, TimeSet.mem_insert] at ha hb
      rcases ha with ha | ha
      · rcases hb with hb | hb
        · rw [ha, hb]
        · exact absurd hb hnb
      · exact absurd ha hna
  · intro k hk
    rw [mem_addAllInRange s times start endTime hwf k]
    rcases hc with ⟨h, _⟩ | ⟨g, hg, h1, h2, _, h4⟩
    · rw [h] at hk
      exact Or.inl hk
    · rw [h4, TimeSet.mem_insert] at hk
      rcases hk with rfl | hk
      · exact Or.inr ⟨hg, h1, h2⟩
      · exact Or.inl hk
  · intro k hk
    rcases hc with ⟨h, _⟩ | ⟨g, _, _, _, _, h4⟩
    · rw [h]
      exact hk
    · rw [h4, TimeSet.mem_insert]
      exact Or.inr hk
  · intro ht
    rcases hc with ⟨h, _⟩ | ⟨g, _, _, _, _, h4⟩
    · rw [h]
      exact ht
    · rw [h4]
      exact TimeSet.insert_sorted times g ht

/-- Witness of C13 on the timeline with samples at 10, 20, 30 and the set holding 5 and
40: the range from 10 to 25 adds the sample time 20, so the set becomes 5, 20, 40; no
sample lies after 30 and up to 40, so that range adds nothing. -/
theorem addLastInRange_spec_witness :
    (sample.measMap.WF ∧ ∃ k ∈ sample.times, (10 : Int) < k ∧ k ≤ 25) ∧
    (∃ g ∈ sample.times, (20 : Int) ≤ g ∧ g ≤ 25 ∧
      g ∈ (sample.addLastInRange [5, 40] 10 25).2 ∧
      ∀ k, k ∈ (sample.addLastInRange [5, 40] 10 25).2 ↔ k = g ∨ k ∈ [(5 : Int), 40]) ∧
    (sample.addLastInRange [5, 40] 10 25).2 = [5, 20, 40] ∧
    (sample.addLastInRange [5] 30 40).2 = [5] :=
  ⟨⟨by decide, 20, by decide, by decide, by decide⟩,
   match (addLastInRange_spec sample [5, 40] 10 25 (by decide)).1
      ⟨20, by decide, by decide, by decide⟩ with
   | ⟨g, hg, _, hle, hmax, _, hmem, hiff⟩ =>
     ⟨g, hg, hmax 20 (by decide) (by decide) (by decide), hle, hmem, hiff⟩,
   by decide,
   (addLastInRange_spec sample [5] 30 40 (by decide)).2.1 (by decide)⟩

/-! ### The watermark advances -/

/-- Counterexample to C15: in the reachable state with samples at 10 and 30 and watermark
20, `removeProcessedFirst()` and `removeProcessedMeas(10)` both set the watermark back
to 10. -/
theorem watermark_goes_back :
    Reachable outOfOrder ∧ outOfOrder.hasProcessedTime = true ∧
    outOfOrder.lastProcessedTime = 20 ∧
    outOfOrder.removeProcessedFirst.map (fun s1 => s1.lastProcessedTime) = some 10 ∧
    (outOfOrder.removeProcessedMeas 10).map (fun s1 => s1.lastProcessedTime) = some 10 :=
  ⟨reachable_outOfOrder, by decide, by decide, by decide, by decide⟩

/-- C15, amended: in a state with a watermark in which every stored time is after the
watermark, `removeProcessedFirst()` on a non-empty map and `removeProcessedMeas(t)` for a
stored `t` return and leave a `lastProcessedTime` strictly greater than the one before. -/
theorem watermark_advances (s : MeasurementTimeline M) (hhas : s.hasProcessedTime = true)
    (hinv : WatermarkInv s) :
    (s.measMap ≠ [] → ∃ s1, s.removeProcessedFirst = some s1 ∧
      s.lastProcessedTime < s1.lastProcessedTime) ∧
    (∀ t ∈ s.times, ∃ s1, s.removeProcessedMeas t = some s1 ∧
      s.lastProcessedTime < s1.lastProcessedTime) := by
  constructor
  · intro hne
    obtain ⟨m, maxW, minW, last, has⟩ := s
    cases m with
    | nil => exact absurd rfl hne
    | cons e rest =>
      exact ⟨_, rfl, hinv hhas e.1 (List.mem_cons_self _ _)⟩
  · intro t ht
    have hcount : s.measMap.count t > 0 := List.count_pos_iff.2 ht
    refine ⟨_, by rw [removeProcessedMeas, if_pos hcount], ?_⟩
    exact hinv hhas t ht

/-- Witness of the amended C15: with watermark 10 and samples at 20 and 30,
`removeProcessedMeas(30)` moves the watermark forward. -/
theorem watermark_advances_witness :
    (sampleProcessed.hasProcessedTime = true ∧ WatermarkInv sampleProcessed) ∧
    ∃ s1, sampleProcessed.removeProcessedMeas 30 = some s1 ∧
      sampleProcessed.lastProcessedTime < s1.lastProcessedTime :=
  ⟨by decide, (watermark_advances sampleProcessed (by decide) (by decide)).2 30 (by decide)⟩

/-! ### mergeUndesired does not always return -/

theorem mergeUndesiredLoop_stuck (times : TimeSet) (hne : times ≠ [])
    (res : BinaryResidualBase M) (s : MeasurementTimeline M) (it : Nat)
    (h : it < s.measMap.length)
    (hle : ¬ (s.measMap.get ⟨it, h⟩).1 > times.getLast hne)
    (hmem : times.count (s.measMap.get ⟨it, h⟩).1 > 0) :
    ∀ fuel, mergeUndesiredLoop times hne res fuel s it = none := by
  intro fuel
  induction fuel with
  | zero => rw [mergeUndesiredLoop]
  | succ fuel ih =>
    rw [mergeUndesiredLoop, dif_pos h]
    dsimp only
    rw [if_neg hle, if_pos hmem]
    exact ih

/-- C19 fails on the code: with watermark 10, samples at 20 and 30 and `times = {20}`, the
loop of `mergeUndesired` meets the stored time 20, which is in `times`, and goes back to
the loop condition with the same iterator; whatever the number of evaluations of the loop
condition allowed, the call has not returned. -/
theorem mergeUndesired_never_returns :
    ∀ fuel : Nat,
      sampleProcessed.mergeUndesired fuel [20] (List.cons_ne_nil 20 []) halving = none :=
  mergeUndesiredLoop_stuck [20] (List.cons_ne_nil 20 []) halving sampleProcessed 0
    (by decide) (by decide) (by decide)

end MeasurementTimeline

/-! ## The pose update -/

/-- C20: with the state at the measured pose and zero noise, `evalUnaryUpdateImpl` gives
the zero position innovation and the identity rotation as attitude innovation, given that
the exponential map takes the zero vector to the identity; in general the position
innovation is `posSta - pos + posNoi`. -/
theorem PoseUpdate.evalUnaryUpdateImpl_spec {V Q : Type} [AddGroup V] [Group Q]
    (exponentialMap : V → Q) (hexp : exponentialMap 0 = 1) (meas : PoseMeas V Q)
    (posSta : V) (attSta : Q) (posNoi attNoi : V) :
    PoseUpdate.evalUnaryUpdateImpl exponentialMap meas meas.pos meas.att 0 0 = (0, 1) ∧
    (PoseUpdate.evalUnaryUpdateImpl exponentialMap meas posSta attSta posNoi attNoi).1 =
      posSta - meas.pos + posNoi := by
  constructor
  · unfold PoseUpdate.evalUnaryUpdateImpl
    simp only [hexp, sub_self, add_zero, one_mul, mul_inv_cancel]
  · rfl

/-- Witness of C20 with integer positions and rotations about one axis by integer angles,
the exponential map being the angle read as a rotation. -/
theorem PoseUpdate.evalUnaryUpdateImpl_spec_witness :
    (Multiplicative.ofAdd (0 : Int) = 1) ∧
    PoseUpdate.evalUnaryUpdateImpl Multiplicative.ofAdd
      (PoseMeas.mk (3 : Int) (Multiplicative.ofAdd (5 : Int))) 3 (Multiplicative.ofAdd 5) 0 0 =
      (0, 1) :=
  ⟨ofAdd_zero, (PoseUpdate.evalUnaryUpdateImpl_spec Multiplicative.ofAdd ofAdd_zero
    (PoseMeas.mk (3 : Int) (Multiplicative.ofAdd (5 : Int))) 0 1 0 0).1⟩

/-! ## State definitions -/

namespace NamesMap

theorem find_cons (p : String × Nat) (rest : NamesMap) (name : String) :
    find (p :: rest) name = if p.1 = name then some p.2 else find rest name := rfl

theorem mem_of_find (l : NamesMap) (name : String) (i : Nat) (h : find l name = some i) :
    (name, i) ∈ l := by
  induction l with
  | nil => simp [find] at h
  | cons p rest ih =>
    rw [find_cons] at h
    by_cases hp : p.1 = name
    · rw [if_pos hp] at h
      have h2 : p.2 = i := Option.some.inj h
      have : p = (name, i) := Prod.ext hp h2
      rw [this]
      exact List.mem_cons_self _ _
    · rw [if_neg hp] at h
      exact List.mem_cons_of_mem _ (ih h)

theorem find_eq_none_iff (l : NamesMap) (name : String) :
    find l name = none ↔ name ∉ l.map Prod.fst := by
  induction l with
  | nil => simp [find]
  | cons p rest ih =>
    rw [find_cons, List.map_cons, List.mem_cons]
    by_cases hp : p.1 = name
    · rw [if_pos hp]
      simp [hp]
    · rw [if_neg hp, ih]
      constructor
      · rintro h (h2 | h2)
        · exact hp h2.symm
        · exact h h2
      · exact fun h h2 => h (Or.inr h2)

theorem find_of_mem (l : NamesMap) (name : String) (i : Nat)
    (hnodup : (l.map Prod.fst).Nodup) (h : (name, i) ∈ l) : find l name = some i := by
  induction l with
  | nil => simp at h
  | cons p rest ih =>
    rw [List.map_cons, List.nodup_cons] at hnodup
    rw [find_cons]
    rcases List.mem_cons.1 h with h | h
    · rw [← h, if_pos rfl]
    · have hne : ¬ p.1 = name := by
        intro hp
        exact hnodup.1 (hp ▸ List.mem_map_of_mem Prod.fst h)
      rw [if_neg hne]
      exact ih hnodup.2 h

theorem find_append (l1 l2 : NamesMap) (name : String) :
    find (l1 ++ l2) name = match find l1 name with
      | some i => some i
      | none => find l2 name := by
  induction l1 with
  | nil => rfl
  | cons p rest ih =>
    rw [List.cons_append, find_cons, find_cons]
    by_cases hp : p.1 = name
    · rw [if_pos hp, if_pos hp]
    · rw [if_neg hp, if_neg hp]
      exact ih

end NamesMap

namespace StateDefinition

variable {E : Type}

theorem addElementDefinition_present (d : StateDefinition E) (e : E) (name : String) (i : Nat)
    (h : d.namesMap.find name = some i) : d.addElementDefinition e name = (d, i) := by
  unfold addElementDefinition
  rw [h]

theorem addElementDefinition_absent (d : StateDefinition E) (e : E) (name : String)
    (h : d.namesMap.find name = none) :
    d.addElementDefinition e name =
      (StateDefinition.mk (d.elementDefinitions ++ [e])
        (d.namesMap ++ [(name, d.elementDefinitions.length)]), d.elementDefinitions.length) := by
  unfold addElementDefinition
  rw [h]
  simp

theorem find_addElementDefinition (d : StateDefinition E) (e : E) (name other : String) :
    (d.addElementDefinition e name).1.namesMap.find other =
      match d.namesMap.find other with
      | some i => some i
      | none => if name = other then some (d.addElementDefinition e name).2 else none := by
  cases h : d.namesMap.find name with
  | some i =>
    rw [addElementDefinition_present d e name i h]
    cases h2 : d.namesMap.find other with
    | some j => rfl
    | none =>
      have hne : ¬ name = other := by
        intro heq
        rw [heq, h2] at h
        exact absurd h (by simp)
      simp [h2, hne]
  | none =>
    rw [addElementDefinition_absent d e name h]
    show NamesMap.find (d.namesMap ++ [(name, d.elementDefinitions.length)]) other = _
    rw [NamesMap.find_append]
    cases h2 : d.namesMap.find other with
    | some j => rfl
    | none => rfl

theorem built_inv (d : StateDefinition E) (h : Built d) :
    d.namesMap.map Prod.snd = List.range d.elementDefinitions.length ∧
    (d.namesMap.map Prod.fst).Nodup := by
  induction h with
  | empty => exact ⟨rfl, List.nodup_nil⟩
  | @add d e name _ ih =>
    cases hf : d.namesMap.find name with
    | some i =>
      rw [addElementDefinition_present d e name i hf]
      exact ih
    | none =>
      rw [addElementDefinition_absent d e name hf]
      constructor
      · show List.map Prod.snd (d.namesMap ++ [(name, d.elementDefinitions.length)]) =
          List.range (d.elementDefinitions ++ [e]).length
        rw [List.map_append, ih.1, List.length_append, List.length_singleton, List.range_succ]
        rfl
      · show (List.map Prod.fst (d.namesMap ++ [(name, d.elementDefinitions.length)])).Nodup
        rw [List.map_append, List.map_singleton]
        have hnot := (NamesMap.find_eq_none_iff d.namesMap name).1 hf
        refine List.Nodup.append ih.2 (List.nodup_singleton _) ?_
        intro a ha hb
        rw [List.mem_singleton] at hb
        have hb2 : a = name := hb
        exact hnot (hb2 ▸ ha)

theorem built_index_lt (d : StateDefinition E) (h : Built d) (name : String) (i : Nat)
    (hf : d.namesMap.find name = some i) : i < d.elementDefinitions.length := by
  have hm := List.mem_map_of_mem Prod.snd (NamesMap.mem_of_find _ _ _ hf)
  rw [(built_inv d h).1] at hm
  exact List.mem_range.1 hm

theorem built_index_surj (d : StateDefinition E) (h : Built d) (i : Nat)
    (hi : i < d.elementDefinitions.length) : ∃ name, d.namesMap.find name = some i := by
  have hm : i ∈ d.namesMap.map Prod.snd := by
    rw [(built_inv d h).1]
    exact List.mem_range.2 hi
  obtain ⟨p, hp, hpi⟩ := List.mem_map.1 hm
  refine ⟨p.1, NamesMap.find_of_mem _ _ _ (built_inv d h).2 ?_⟩
  rw [← hpi]
  exact hp

theorem built_index_inj (d : StateDefinition E) (h : Built d) (n1 n2 : String) (i : Nat)
    (h1 : d.namesMap.find n1 = some i) (h2 : d.namesMap.find n2 = some i) : n1 = n2 := by
  have hnd : (d.namesMap.map Prod.snd).Nodup := by
    rw [(built_inv d h).1]
    exact List.nodup_range _
  have := List.inj_on_of_nodup_map hnd (NamesMap.mem_of_find _ _ _ h1)
    (NamesMap.mem_of_find _ _ _ h2) rfl
  exact congrArg Prod.fst this

/-- C17: on a definition built by `addElementDefinition` calls, registering a new name
appends one element definition and returns the previous number of definitions, leaving
the indices of the other names; registering a present name returns its index and changes
nothing, so a second registration returns what the first returned and every index stays
what it was; the names map is a bijection between the registered names and the indices
below the number of element definitions. -/
theorem addElementDefinition_spec (d : StateDefinition E) (h : Built d) (e : E)
    (name : String) :
    (d.namesMap.find name = none →
      (d.addElementDefinition e name).1.elementDefinitions = d.elementDefinitions ++ [e] ∧
      (d.addElementDefinition e name).2 = d.elementDefinitions.length ∧
      (d.addElementDefinition e name).1.namesMap.find name =
        some d.elementDefinitions.length ∧
      ∀ other, other ≠ name →
        (d.addElementDefinition e name).1.namesMap.find other = d.namesMap.find other) ∧
    (∀ i, d.namesMap.find name = some i → d.addElementDefinition e name = (d, i)) ∧
    (∀ e2, (d.addElementDefinition e name).1.addElementDefinition e2 name =
      ((d.addElementDefinition e name).1, (d.addElementDefinition e name).2)) ∧
    (∀ other i, d.namesMap.find other = some i →
      (d.addElementDefinition e name).1.namesMap.find other = some i) ∧
    d.namesMap.length = d.elementDefinitions.length ∧
    (∀ nm i, d.namesMap.find nm = some i → i < d.elementDefinitions.length) ∧
    (∀ i, i < d.elementDefinitions.length → ∃ nm, d.namesMap.find nm = some i) ∧
    (∀ n1 n2 i, d.namesMap.find n1 = some i → d.namesMap.find n2 = some i → n1 = n2) := by
  refine ⟨?_, ?_, ?_, ?_, ?_, built_index_lt d h, built_index_surj d h, built_index_inj d h⟩
  · intro hf
    rw [addElementDefinition_absent d e name hf]
    refine ⟨rfl, rfl, ?_, ?_⟩
    · show NamesMap.find (d.namesMap ++ [(name, d.elementDefinitions.length)]) name = _
      rw [NamesMap.find_append, hf]
      simp [NamesMap.find]
    · intro other hne
      show NamesMap.find (d.namesMap ++ [(name, d.elementDefinitions.length)]) other = _
      rw [NamesMap.find_append]
      have hne2 : ¬ name = other := fun h2 => hne h2.symm
      cases h2 : d.namesMap.find other with
      | some j => rfl
      | none => simp [NamesMap.find, hne2]
  · exact fun i hf => addElementDefinition_present d e name i hf
  · intro e2
    have hfind := find_addElementDefinition d e name name
    cases hf : d.namesMap.find name with
    | some i =>
      rw [hf] at hfind
      exact addElementDefinition_present _ e2 name _
        (by rw [hfind, addElementDefinition_present d e name i hf])
    | none =>
      rw [hf] at hfind
      exact addElementDefinition_present _ e2 name _ (by rw [hfind]; simp)
  · intro other i hf
    rw [find_addElementDefinition, hf]
  · have := congrArg List.length (built_inv d h).1
    simpa using this

/-- Witness of C17: after `pos` and `att` were registered, registering `pos` again
returns the index 0 and `vel` gets the index 2. -/
theorem addElementDefinition_spec_witness :
    Built posAtt ∧
    posAtt.addElementDefinition 3 "pos" = (posAtt, 0) ∧
    (posAtt.addElementDefinition 3 "vel").2 = 2 :=
  ⟨Built.add 2 "att" (Built.add 1 "pos" Built.empty),
   (addElementDefinition_spec posAtt (Built.add 2 "att" (Built.add 1 "pos" Built.empty))
     3 "pos").2.1 0 (by decide),
   ((addElementDefinition_spec posAtt (Built.add 2 "att" (Built.add 1 "pos" Built.empty))
     3 "vel").1 (by decide)).2.1⟩

end StateDefinition

/-! ## State wrappers -/

namespace StateWrapper

variable {E El : Type}

theorem resize_length (v : List Nat) (n : Nat) : (resize v n).length = n := by
  unfold resize
  rw [List.length_append, List.length_take, List.length_replicate]
  omega

theorem computeMapLoop_ok (inNames : NamesMap) :
    ∀ (entries : List (String × Nat)) (indexMap : List Nat),
      (entries.map Prod.snd).Nodup → (∀ p ∈ entries, p.2 < indexMap.length) →
      (∀ p ∈ entries, ∃ j, inNames.find p.1 = some j) →
      ∃ m, computeMapLoop inNames entries indexMap = some m ∧ m.length = indexMap.length ∧
        (∀ p ∈ entries, ∀ j, inNames.find p.1 = some j → m[p.2]? = some j) ∧
        (∀ k, (∀ p ∈ entries, p.2 ≠ k) → m[k]? = indexMap[k]?) := by
  intro entries
  induction entries with
  | nil =>
    intro indexMap _ _ _
    exact ⟨indexMap, rfl, rfl, fun p hp => absurd hp (List.not_mem_nil p), fun _ _ => rfl⟩
  | cons p rest ih =>
    intro indexMap hnd hidx hfind
    rw [List.map_cons, List.nodup_cons] at hnd
    obtain ⟨j, hj⟩ := hfind p (List.mem_cons_self _ _)
    have hlt := hidx p (List.mem_cons_self _ _)
    obtain ⟨m, hm, hlen, hval, hother⟩ := ih (indexMap.set p.2 j) hnd.2
      (fun q hq => by rw [List.length_set]; exact hidx q (List.mem_cons_of_mem _ hq))
      (fun q hq => hfind q (List.mem_cons_of_mem _ hq))
    refine ⟨m, ?_, by rw [hlen, List.length_set], ?_, ?_⟩
    · rw [computeMapLoop]
      simp only [hj]
      rw [if_pos hlt]
      exact hm
    · intro q hq j2 hj2
      rcases List.mem_cons.1 hq with rfl | hq
      · have hfresh : ∀ r ∈ rest, r.2 ≠ q.2 :=
          fun r hr heq => hnd.1 (heq ▸ List.mem_map_of_mem Prod.snd hr)
        rw [hother q.2 hfresh, List.getElem?_set_self hlt]
        rw [hj] at hj2
        exact hj2
      · exact hval q hq j2 hj2
    · intro k hk
      rw [hother k (fun q hq => hk q (List.mem_cons_of_mem _ hq))]
      exact List.getElem?_set_ne (hk p (List.mem_cons_self _ _))

theorem computeMapLoop_fail (inNames : NamesMap) :
    ∀ (entries : List (String × Nat)) (indexMap : List Nat),
      (∃ p ∈ entries, inNames.find p.1 = none) →
      computeMapLoop inNames entries indexMap = none := by
  intro entries
  induction entries with
  | nil =>
    rintro indexMap ⟨p, hp, _⟩
    exact absurd hp (List.not_mem_nil p)
  | cons q rest ih =>
    rintro indexMap ⟨p, hp, hnone⟩
    rw [computeMapLoop]
    cases hq : inNames.find q.1 with
    | none => rfl
    | some j =>
      dsimp only
      by_cases hlt : q.2 < indexMap.length
      · rw [if_pos hlt]
        rcases List.mem_cons.1 hp with rfl | hp
        · rw [hq] at hnone
          exact absurd hnone (by simp)
        · exact ih _ ⟨p, hp, hnone⟩
      · rw [if_neg hlt]

theorem wrapLoop_ok (src : State El) :
    ∀ (js : List Nat) (i : Nat) (out : State El),
      (∀ j ∈ js, j < src.length) → i + js.length ≤ out.length →
      ∃ out1, wrapLoop src js i out = some out1 ∧ out1.length = out.length ∧
        (∀ k j, js[k]? = some j → out1[i + k]? = src[j]?) ∧
        (∀ k, k < i → out1[k]? = out[k]?) := by
  intro js
  induction js with
  | nil =>
    intro i out _ _
    exact ⟨out, rfl, rfl, fun k j h => by simp at h, fun _ _ => rfl⟩
  | cons j rest ih =>
    intro i out hsrc hlen
    have hj : j < src.length := hsrc j (List.mem_cons_self _ _)
    have hi : i < out.length := by
      rw [List.length_cons] at hlen
      omega
    obtain ⟨out1, h1, hlen1, hval, hkeep⟩ := ih (i + 1) (out.set i src[j])
      (fun j2 hj2 => hsrc j2 (List.mem_cons_of_mem _ hj2))
      (by rw [List.length_set, List.length_cons] at *; omega)
    refine ⟨out1, ?_, by rw [hlen1, List.length_set], ?_, ?_⟩
    · rw [wrapLoop]
      have hget : src.getElement j = some src[j] := List.getElem?_eq_getElem hj
      simp only [hget]
      rw [if_pos hi]
      exact h1
    · intro k j2 hk
      cases k with
      | zero =>
        have hj2 : j = j2 := by simpa using hk
        rw [Nat.add_zero, hkeep i (Nat.lt_succ_self i), List.getElem?_set_self hi, ← hj2,
          List.getElem?_eq_getElem hj]
      | succ k =>
        have hk2 : rest[k]? = some j2 := by simpa using hk
        have := hval k j2 hk2
        rw [show i + (k + 1) = i + 1 + k by omega]
        exact this
    · intro k hk
      rw [hkeep k (by omega)]
      exact List.getElem?_set_ne (by omega)

end StateWrapper

namespace StateWrapper

variable {E El : Type}

theorem computeMap_ok (w : StateWrapper E) (order : List (String × Nat))
    (hout : StateDefinition.Built w.outDefinition)
    (horder : order.Perm w.outDefinition.namesMap)
    (hnames : ∀ nm i, w.outDefinition.namesMap.find nm = some i →
      ∃ j, w.inDefinition.namesMap.find nm = some j) :
    ∃ m, w.computeMap order = some { w with indexMap := m } ∧
      m.length = w.outDefinition.elementDefinitions.length ∧
      (∀ nm i j, w.outDefinition.namesMap.find nm = some i →
        w.inDefinition.namesMap.find nm = some j → m[i]? = some j) := by
  have hinv := StateDefinition.built_inv w.outDefinition hout
  have hlenN : w.outDefinition.namesMap.length = w.outDefinition.elementDefinitions.length := by
    have := congrArg List.length hinv.1
    simpa using this
  have hnd : (order.map Prod.snd).Nodup := by
    rw [(horder.map Prod.snd).nodup_iff, hinv.1]
    exact List.nodup_range _
  have hidx : ∀ p ∈ order,
      p.2 < (resize w.indexMap w.outDefinition.namesMap.length).length := by
    intro p hp
    rw [resize_length, hlenN]
    have hm := List.mem_map_of_mem Prod.snd (horder.mem_iff.1 hp)
    rw [hinv.1] at hm
    exact List.mem_range.1 hm
  have hfind : ∀ p ∈ order, ∃ j, w.inDefinition.namesMap.find p.1 = some j := by
    intro p hp
    exact hnames p.1 p.2
      (NamesMap.find_of_mem _ _ _ hinv.2 (horder.mem_iff.1 hp))
  obtain ⟨m, hm, hlen, hval, _⟩ :=
    computeMapLoop_ok w.inDefinition.namesMap order _ hnd hidx hfind
  refine ⟨m, ?_, by rw [hlen, resize_length, hlenN], ?_⟩
  · unfold computeMap
    rw [hm]
  · intro nm i j ho hi
    exact hval (nm, i) (horder.mem_iff.2 (NamesMap.mem_of_find _ _ _ ho)) j hi

/-- C18: for an out schema and an in schema built by `addElementDefinition`, whatever the
order in which the out names map is iterated: if every out name is an in name,
`computeMap()` returns an index array as long as the out schema whose entry at the out
index of a name is the in index of that name, and then, for every source state of the in
schema, `wrap` returns and puts at every out index the source element of the same name,
the element that `getElement` of the wrapper returns there; if some out name is not an in
name, `computeMap()` fails. -/
theorem computeMap_wrap_spec (w : StateWrapper E) (order : List (String × Nat))
    (hout : StateDefinition.Built w.outDefinition)
    (hin : StateDefinition.Built w.inDefinition)
    (horder : order.Perm w.outDefinition.namesMap) :
    ((∀ nm i, w.outDefinition.namesMap.find nm = some i →
        ∃ j, w.inDefinition.namesMap.find nm = some j) →
      ∃ w1, w.computeMap order = some w1 ∧
        w1.inDefinition = w.inDefinition ∧ w1.outDefinition = w.outDefinition ∧
        w1.indexMap.length = w.outDefinition.elementDefinitions.length ∧
        (∀ nm i j, w.outDefinition.namesMap.find nm = some i →
          w.inDefinition.namesMap.find nm = some j → w1.indexMap[i]? = some j) ∧
        ∀ (src out : State El), src.length = w.inDefinition.elementDefinitions.length →
          out.length = w.outDefinition.elementDefinitions.length →
          ∃ out1, w1.wrap out src = some out1 ∧ out1.length = out.length ∧
            ∀ nm i j, w.outDefinition.namesMap.find nm = some i →
              w.inDefinition.namesMap.find nm = some j →
              ∃ e, src[j]? = some e ∧ out1[i]? = some e ∧ w1.getElement src i = some e) ∧
    ((∃ nm i, w.outDefinition.namesMap.find nm = some i ∧
        w.inDefinition.namesMap.find nm = none) →
      w.computeMap order = none) := by
  constructor
  · intro hnames
    obtain ⟨m, hm, hlen, hval⟩ := computeMap_ok w order hout horder hnames
    refine ⟨{ w with indexMap := m }, hm, rfl, rfl, hlen, hval, ?_⟩
    intro src out hsrclen houtlen
    have hsrc : ∀ j ∈ m, j < src.length := by
      intro j hj
      obtain ⟨i, hi⟩ := List.mem_iff_getElem?.1 hj
      obtain ⟨hilt, _⟩ := List.getElem?_eq_some.1 hi
      rw [hlen] at hilt
      obtain ⟨nm, hnm⟩ := StateDefinition.built_index_surj w.outDefinition hout i hilt
      obtain ⟨j2, hj2⟩ := hnames nm i hnm
      have h2 := hval nm i j2 hnm hj2
      rw [hi] at h2
      rw [Option.some.inj h2, hsrclen]
      exact StateDefinition.built_index_lt w.inDefinition hin nm j2 hj2
    obtain ⟨out1, h1, hlen1, hcopy, _⟩ := wrapLoop_ok src m 0 out hsrc
      (by rw [Nat.zero_add, hlen, houtlen])
    refine ⟨out1, h1, hlen1, ?_⟩
    intro nm i j ho hi
    have hmi : m[i]? = some j := hval nm i j ho hi
    have hjlt : j < src.length := hsrc j (List.mem_iff_getElem?.2 ⟨i, hmi⟩)
    have hc := hcopy i j hmi
    rw [Nat.zero_add, List.getElem?_eq_getElem hjlt] at hc
    refine ⟨src[j], List.getElem?_eq_getElem hjlt, hc, ?_⟩
    show (match m[i]? with
      | some j => State.getElement src j
      | none => none) = some src[j]
    rw [hmi]
    exact List.getElem?_eq_getElem hjlt
  · rintro ⟨nm, i, ho, hnone⟩
    have hp : (nm, i) ∈ order := horder.mem_iff.2 (NamesMap.mem_of_find _ _ _ ho)
    unfold computeMap
    rw [computeMapLoop_fail w.inDefinition.namesMap order _ ⟨(nm, i), hp, hnone⟩]

end StateWrapper

namespace StateWrapper

theorem built_posAtt : StateDefinition.Built StateDefinition.posAtt :=
  StateDefinition.Built.add 2 "att"
    (StateDefinition.Built.add 1 "pos" StateDefinition.Built.empty)

theorem built_attVelPos : StateDefinition.Built StateDefinition.attVelPos :=
  StateDefinition.Built.add 3 "pos" (StateDefinition.Built.add 2 "vel"
    (StateDefinition.Built.add 1 "att" StateDefinition.Built.empty))

theorem posAtt_names_in_attVelPos (nm : String) (i : Nat)
    (h : StateDefinition.posAtt.namesMap.find nm = some i) :
    ∃ j, StateDefinition.attVelPos.namesMap.find nm = some j := by
  by_cases h1 : "pos" = nm
  · subst h1
    exact ⟨2, by decide⟩
  · by_cases h2 : "att" = nm
    · subst h2
      exact ⟨0, by decide⟩
    · have hn : StateDefinition.posAtt.namesMap.find nm = none := by
        show NamesMap.find [("pos", 0), ("att", 1)] nm = none
        simp [NamesMap.find, h1, h2]
      rw [hn] at h
      exact absurd h (by simp)

/-- Witness of C18: the out schema `pos`, `att` over the in schema `att`, `vel`, `pos`, the
out names map iterated from its last entry: `wrap` puts the source element of `pos`, the
third one, at the out index 0. -/
theorem computeMap_wrap_spec_witness :
    (StateDefinition.Built StateDefinition.posAtt ∧
      StateDefinition.Built StateDefinition.attVelPos ∧
      [("att", 1), ("pos", 0)].Perm StateDefinition.posAtt.namesMap) ∧
    ∃ w1, (StateWrapper.mk StateDefinition.attVelPos StateDefinition.posAtt []).computeMap
        [("att", 1), ("pos", 0)] = some w1 ∧
      ∃ out1, w1.wrap [0, 0] [100, 200, 300] = some out1 ∧
        ∃ e, ([100, 200, 300] : State Nat)[2]? = some e ∧ out1[0]? = some e ∧
          w1.getElement [100, 200, 300] 0 = some e :=
  ⟨⟨built_posAtt, built_attVelPos, by decide⟩,
   match (@computeMap_wrap_spec Nat Nat
      (StateWrapper.mk StateDefinition.attVelPos StateDefinition.posAtt [])
      [("att", 1), ("pos", 0)] built_posAtt built_attVelPos (by decide)).1
      posAtt_names_in_attVelPos with
   | ⟨w1, h1, _, _, _, _, hwrap⟩ =>
     ⟨w1, h1,
      match hwrap [100, 200, 300] [0, 0] rfl rfl with
      | ⟨out1, h2, _, h3⟩ => ⟨out1, h2, h3 "pos" 0 2 (by decide) (by decide)⟩⟩⟩

end StateWrapper

end GIF
